import Mathlib

/-!
Verification development for the KF-Database storage engine
(`src/index.ts`, class `Base`).

The embedding models:
* `JsValue` — the dynamically typed tree values stored under each key,
  including the JavaScript `undefined` value (needed because lodash
  `unset` on a sequence index leaves an `undefined` hole).
* lodash `_.get` / `_.set` / `_.unset` as used by the facade
  (`getPath`, `setPath`, `unsetPath`), with paths already tokenized to
  accessor lists as lodash `castPath` produces for dot paths.
* the durable sqlite table as an association list from key to the
  parsed form of the persisted JSON text (`normalize` models the
  `JSON.stringify` / `JSON.parse` round trip), and the optional
  in-memory `Map` mirror as an optional association list.
* the public facade `Base.get` / `Base.set` / `Base.ensure` /
  `Base.delete` / `Base.deleteAll` / `Base.indices`, with thrown
  errors modelled by `Except`.
-/

namespace KFDB

/-- A JavaScript value as handled by the database: the JSON tree nodes
plus `undefined`. Numbers are modelled as integers (all values used by
the specification are integral). -/
inductive JsValue where
  | vundef : JsValue
  | vnull : JsValue
  | vbool (b : Bool) : JsValue
  | vnum (n : Int) : JsValue
  | vstr (s : String) : JsValue
  | varr (elems : List JsValue) : JsValue
  | vobj (fields : List (String × JsValue)) : JsValue
  deriving Repr

/-- Whether a value is exactly `undefined`. -/
def isUndef : JsValue → Bool
  | .vundef => true
  | _ => false

/-- Whether a value is `null` or `undefined` (the `=== null ||
=== undefined` tests of the source). -/
def isNullish : JsValue → Bool
  | .vundef => true
  | .vnull => true
  | _ => false

/-- Lookup in an association list, first match wins (models both a JS
`Map.get` on string keys and a sqlite `SELECT ... WHERE key = ?`). -/
def lookupA (l : List (String × JsValue)) (k : String) : Option JsValue :=
  match l with
  | [] => none
  | (k', v) :: rest => if k' = k then some v else lookupA rest k

/-- Insert-or-replace in an association list, keeping the position of an
existing key (models `Map.set` and the upsert `INSERT OR REPLACE`). -/
def upsertA (l : List (String × JsValue)) (k : String) (v : JsValue) :
    List (String × JsValue) :=
  match l with
  | [] => [(k, v)]
  | (k', v') :: rest =>
      if k' = k then (k, v) :: rest else (k', v') :: upsertA rest k v

/-- Remove a key from an association list (models `Map.delete` and
`DELETE ... WHERE key = ?`). -/
def removeA (l : List (String × JsValue)) (k : String) :
    List (String × JsValue) :=
  l.filter (fun e => e.1 ≠ k)

/-- Whether a string is a canonical non-negative decimal integer, the
form lodash (`isIndex` / JS array indexing) treats as a sequence index:
nonempty, all digits, no leading zero except for "0" itself. -/
def isIndexStr (s : String) : Bool :=
  s.data.all Char.isDigit && s ≠ "" && (s = "0" || s.data.head? ≠ some '0')

/-- Numeric value of a digit string (the index denoted by an accessor). -/
def strToNat (s : String) : Nat :=
  s.data.foldl (fun acc c => acc * 10 + (c.toNat - 48)) 0

/-- Whether a value is a JavaScript object in the lodash `isObject`
sense, restricted to database values: sequences and mappings. -/
def isObj : JsValue → Bool
  | .varr _ => true
  | .vobj _ => true
  | _ => false

/-- Child access `v[k]`: mapping field lookup, sequence index lookup for
canonical index accessors, character access on text; `undefined`
otherwise. -/
def childGet (v : JsValue) (k : String) : JsValue :=
  match v with
  | .vobj fs => (lookupA fs k).getD .vundef
  | .varr es => if isIndexStr k then es.getD (strToNat k) .vundef else .vundef
  | .vstr s =>
      if isIndexStr k then
        match s.data.get? (strToNat k) with
        | some c => .vstr (String.mk [c])
        | none => .vundef
      else .vundef
  | _ => JsValue.vundef

/-- Child assignment `v[k] = c`: replaces a mapping field or sequence
element; writing past the end of a sequence pads with `undefined` holes
as JS does. Assigning a non-index property on a sequence is modelled as
a no-op (such properties are never observable through this facade and
the equivalence theorems exclude them explicitly). Assignment into a
non-container value has no effect. -/
def childSet (v : JsValue) (k : String) (c : JsValue) : JsValue :=
  match v with
  | .vobj fs => .vobj (upsertA fs k c)
  | .varr es =>
      if isIndexStr k then
        let i := strToNat k
        if i < es.length then .varr (es.set i c)
        else .varr (es ++ List.replicate (i - es.length) .vundef ++ [c])
      else v
  | _ => v

/-- lodash `_.get` over a tokenized path. -/
def getPath : JsValue → List String → JsValue
  | v, [] => v
  | v, k :: rest => getPath (childGet v k) rest

/-- The fresh container lodash `_.set` creates for a missing or
non-container intermediate node: a sequence when the next accessor is an
index, else a mapping. -/
def freshContainer (k2 : String) : JsValue :=
  if isIndexStr k2 then .varr [] else .vobj []

/-- lodash `_.set` over a tokenized path (pure rendering of `baseSet`):
returns the updated value; a non-object value is returned unchanged
(`baseSet` starts with an `isObject` guard), and a non-container
intermediate node is destructively replaced by a fresh container. -/
def setPath : JsValue → List String → JsValue → JsValue
  | v, [], _ => v
  | v, [k], leaf => if isObj v then childSet v k leaf else v
  | v, k :: k2 :: rest, leaf =>
      if isObj v then
        let child := childGet v k
        let base := if isObj child then child else freshContainer k2
        childSet v k (setPath base (k2 :: rest) leaf)
      else v

/-- The `delete parent[k]` step of lodash `_.unset`, applied to the
parent value: removing a mapping key always succeeds; removing a
sequence element leaves an `undefined` hole (the length is unchanged)
and succeeds; `length` and in-range character slots of text are
non-configurable so `delete` reports failure; deleting from a nullish
parent reports success; properties of boxed scalars do not exist so
`delete` reports success without effect. -/
def deleteKey (v : JsValue) (k : String) : JsValue × Bool :=
  match v with
  | .vobj fs => (.vobj (removeA fs k), true)
  | .varr es =>
      if k = "length" then (v, false)
      else if isIndexStr k then
        if strToNat k < es.length then (.varr (es.set (strToNat k) .vundef), true)
        else (v, true)
      else (v, true)
  | .vstr s =>
      if k = "length" then (v, false)
      else if isIndexStr k = true ∧ strToNat k < s.length then (v, false)
      else (v, true)
  | _ => (v, true)

/-- lodash `_.unset` over a tokenized path (pure rendering of
`baseUnset`): walks to the parent of the final accessor and applies
`deleteKey` there; the in-place mutation is visible in the result only
when the walk stays in container references. The empty path (never
produced by the facade) deletes the property named "undefined" as
lodash `toKey` of `undefined` would. -/
def unsetPath : JsValue → List String → JsValue × Bool
  | v, [] => deleteKey v "undefined"
  | v, [k] => deleteKey v k
  | v, k :: k2 :: rest =>
      let child := childGet v k
      let res := unsetPath child (k2 :: rest)
      (if isObj child then childSet v k res.1 else v, res.2)

mutual

/-- The `JSON.stringify` / `JSON.parse` round trip applied to a value
when it is persisted: `undefined` sequence elements (holes) become
`null`, `undefined` mapping fields are dropped, everything else is kept
exactly. -/
def normalize : JsValue → JsValue
  | .vundef => .vnull
  | .vnull => .vnull
  | .vbool b => .vbool b
  | .vnum n => .vnum n
  | .vstr s => .vstr s
  | .varr es => .varr (normalizeList es)
  | .vobj fs => .vobj (normalizeFields fs)

/-- Serialization of the elements of a sequence. -/
def normalizeList : List JsValue → List JsValue
  | [] => []
  | e :: es => normalize e :: normalizeList es

/-- Serialization of the fields of a mapping: `undefined` fields are
dropped as `JSON.stringify` drops them. -/
def normalizeFields : List (String × JsValue) → List (String × JsValue)
  | [] => []
  | (k, v) :: fs =>
      if isUndef v then normalizeFields fs
      else (k, normalize v) :: normalizeFields fs

end

mutual

/-- Whether a value is a plain JSON tree with no `undefined` inside:
exactly the values `JSON.parse` can produce. -/
def NormalB : JsValue → Bool
  | .vundef => false
  | .vnull => true
  | .vbool _ => true
  | .vnum _ => true
  | .vstr _ => true
  | .varr es => NormalListB es
  | .vobj fs => NormalFieldsB fs

/-- All elements of a sequence are plain JSON. -/
def NormalListB : List JsValue → Bool
  | [] => true
  | e :: es => NormalB e && NormalListB es

/-- All field values of a mapping are plain JSON. -/
def NormalFieldsB : List (String × JsValue) → Bool
  | [] => true
  | (_, v) :: fs => NormalB v && NormalFieldsB fs

end

/-- JavaScript truthiness of a database value (`NaN` is not
representable in this model). -/
def truthy : JsValue → Bool
  | .vundef => false
  | .vnull => false
  | .vbool b => b
  | .vnum n => n ≠ 0
  | .vstr s => s ≠ ""
  | .varr _ => true
  | .vobj _ => true

mutual

/-- Structural boolean equality of values. -/
def beqJs : JsValue → JsValue → Bool
  | .vundef, .vundef => true
  | .vnull, .vnull => true
  | .vbool a, .vbool b => a == b
  | .vnum a, .vnum b => a == b
  | .vstr a, .vstr b => a == b
  | .varr a, .varr b => beqJsList a b
  | .vobj a, .vobj b => beqJsFields a b
  | _, _ => false

/-- Structural boolean equality of element lists. -/
def beqJsList : List JsValue → List JsValue → Bool
  | [], [] => true
  | a :: as, b :: bs => beqJs a b && beqJsList as bs
  | _, _ => false

/-- Structural boolean equality of field lists. -/
def beqJsFields : List (String × JsValue) → List (String × JsValue) → Bool
  | [], [] => true
  | (k, v) :: as, (k', v') :: bs => k == k' && beqJs v v' && beqJsFields as bs
  | _, _ => false

end

/-- Induction over values where the container cases provide the
hypothesis for every member. -/
theorem jsInduction {P : JsValue → Prop}
    (hundef : P .vundef) (hnull : P .vnull)
    (hbool : ∀ b, P (.vbool b)) (hnum : ∀ n, P (.vnum n))
    (hstr : ∀ s, P (.vstr s))
    (harr : ∀ es, (∀ e ∈ es, P e) → P (.varr es))
    (hobj : ∀ fs, (∀ kv ∈ fs, P kv.2) → P (.vobj fs)) :
    ∀ v, P v
  | .vundef => hundef
  | .vnull => hnull
  | .vbool b => hbool b
  | .vnum n => hnum n
  | .vstr s => hstr s
  | .varr es =>
      harr es (fun e he =>
        jsInduction hundef hnull hbool hnum hstr harr hobj e)
  | .vobj fs =>
      hobj fs (fun kv hkv =>
        jsInduction hundef hnull hbool hnum hstr harr hobj kv.2)
decreasing_by
  · have h1 : sizeOf e < sizeOf es := List.sizeOf_lt_of_mem he
    simp only [JsValue.varr.sizeOf_spec]
    omega
  · have h1 : sizeOf kv < sizeOf fs := List.sizeOf_lt_of_mem hkv
    have h2 : sizeOf kv.2 ≤ sizeOf kv := by
      obtain ⟨a, b⟩ := kv
      simp only [Prod.mk.sizeOf_spec]
      omega
    simp only [JsValue.vobj.sizeOf_spec]
    omega

theorem beqJs_iff : ∀ a b : KFDB.JsValue, beqJs a b = true ↔ a = b := by
  intro a
  induction a using jsInduction with
  | hundef => intro b; cases b <;> simp [beqJs]
  | hnull => intro b; cases b <;> simp [beqJs]
  | hbool x => intro b; cases b <;> simp [beqJs]
  | hnum x => intro b; cases b <;> simp [beqJs]
  | hstr x => intro b; cases b <;> simp [beqJs]
  | harr es ih =>
      intro b
      cases b <;> simp [beqJs]
      rename_i es'
      induction es generalizing es' with
      | nil => cases es' <;> simp [beqJsList]
      | cons e rest ihr =>
          cases es' with
          | nil => simp [beqJsList]
          | cons e' rest' =>
              simp only [beqJsList, Bool.and_eq_true, List.cons.injEq]
              constructor
              · rintro ⟨h1, h2⟩
                exact ⟨(ih e (by simp) e').mp h1,
                  (ihr (fun x hx => ih x (by simp [hx])) rest').mp h2⟩
              · rintro ⟨h1, h2⟩
                exact ⟨(ih e (by simp) e').mpr h1,
                  (ihr (fun x hx => ih x (by simp [hx])) rest').mpr h2⟩
  | hobj fs ih =>
      intro b
      cases b <;> simp [beqJs]
      rename_i fs'
      induction fs generalizing fs' with
      | nil => cases fs' <;> simp [beqJsFields]
      | cons kv rest ihr =>
          obtain ⟨k, v⟩ := kv
          cases fs' with
          | nil => simp [beqJsFields]
          | cons kv' rest' =>
              obtain ⟨k', v'⟩ := kv'
              simp only [beqJsFields, Bool.and_eq_true, List.cons.injEq,
                Prod.mk.injEq, beq_iff_eq]
              constructor
              · rintro ⟨⟨h0, h1⟩, h2⟩
                exact ⟨⟨h0, (ih (k, v) (by simp) v').mp h1⟩,
                  (ihr (fun x hx => ih x (by simp [hx])) rest').mp h2⟩
              · rintro ⟨⟨h0, h1⟩, h2⟩
                exact ⟨⟨h0, (ih (k, v) (by simp) v').mpr h1⟩,
                  (ihr (fun x hx => ih x (by simp [hx])) rest').mpr h2⟩

instance : DecidableEq JsValue := fun a b =>
  decidable_of_iff (beqJs a b = true) (beqJs_iff a b)

/-- The dynamically typed key argument of the facade: text, numeric, or
one of the other JavaScript inputs the source tests for
(`typeof key !== 'string' && typeof key !== 'number'`). -/
inductive KeyInput where
  | kstr (s : String) : KeyInput
  | knum (n : Int) : KeyInput
  | kbool (b : Bool) : KeyInput
  | knull : KeyInput
  | kundef : KeyInput
  deriving Repr, DecidableEq

/-- Whether the key passes the `typeof` test of `Base.set`. -/
def keyValid : KeyInput → Bool
  | .kstr _ => true
  | .knum _ => true
  | _ => false

/-- Key normalization: numeric keys are converted with `toString`,
text keys are kept. The remaining cases never reach storage. -/
def normKey : KeyInput → String
  | .kstr s => s
  | .knum n => toString n
  | .kbool b => if b then "true" else "false"
  | .knull => "null"
  | .kundef => "undefined"

/-- Errors thrown by the facade: the invalid-key error of `set`, the
missing-default error of `ensure`, and the driver error raised when a
statement parameter cannot be bound (`JSON.stringify` of `undefined` is
`undefined`, and booleans cannot be bound either). -/
inductive BaseError where
  | invalidKey : BaseError
  | noDefault : BaseError
  | cannotBind : BaseError
  deriving Repr, DecidableEq

/-- Decidable equality of results, used to evaluate concrete runs. -/
instance exceptDecEq {ε α : Type} [DecidableEq ε] [DecidableEq α] :
    DecidableEq (Except ε α) := fun a b =>
  match a, b with
  | .ok x, .ok y =>
      if h : x = y then isTrue (congrArg Except.ok h)
      else isFalse (fun hh => h (Except.ok.inj hh))
  | .error x, .error y =>
      if h : x = y then isTrue (congrArg Except.error h)
      else isFalse (fun hh => h (Except.error.inj hh))
  | .ok _, .error _ => isFalse (fun hh => Except.noConfusion hh)
  | .error _, .ok _ => isFalse (fun hh => Except.noConfusion hh)

/-- The state of a `Base` instance: the durable sqlite table (each row
holds the parse of the persisted JSON text) and the optional in-memory
mirror `map`. -/
structure BaseState where
  db : List (String × JsValue)
  map : Option (List (String × JsValue))
  deriving Repr, DecidableEq

/-- The private `getValueObjectAtKey`: the mirror value when the map is
in memory, else a direct read of the durable row (parsed). A missing
entry is `undefined`. -/
def getValueObjectAtKey (st : BaseState) (k : String) : JsValue :=
  match st.map with
  | some m => (lookupA m k).getD .vundef
  | none => (lookupA st.db k).getD JsValue.vundef

/-- The root value a path write starts from: the current value, with a
null or absent root replaced by a fresh empty mapping
(`if (valueObject === null || valueObject === undefined) valueObject = {}`). -/
def rootFor (st : BaseState) (k : String) : JsValue :=
  let cur := getValueObjectAtKey st k
  if isNullish cur then .vobj [] else cur

/-- The public `get`: nullish keys return `null`; a boolean key finds
nothing in the mirror but cannot be bound by the direct query; otherwise
the key is normalized, the value object resolved, and the path applied
with lodash `_.get`. -/
def Base.get (st : BaseState) (key : KeyInput) (path : Option (List String)) :
    Except BaseError JsValue :=
  match key with
  | .knull => .ok .vnull
  | .kundef => .ok .vnull
  | .kbool _ =>
      match st.map with
      | some _ =>
          .ok (match path with
               | some p => getPath .vundef p
               | none => .vundef)
      | none => .error .cannotBind
  | _ =>
      let vo := getValueObjectAtKey st (normKey key)
      .ok (match path with
           | some p => getPath vo p
           | none => vo)

/-- The public `set`: rejects non text or numeric keys, resolves the
current value object, applies `_.set` along the path (establishing an
empty mapping root when the current value is nullish) or replaces the
value outright, persists the serialized result, and updates the mirror
with the live value. -/
def Base.set (st : BaseState) (key : KeyInput) (value : JsValue)
    (path : Option (List String)) : Except BaseError BaseState :=
  if keyValid key then
    let k := normKey key
    let vo := match path with
      | some p => setPath (rootFor st k) p value
      | none => value
    if isUndef vo then .error .cannotBind
    else .ok ⟨upsertA st.db k (normalize vo),
              st.map.map (fun m => upsertA m k vo)⟩
  else .error .invalidKey

/-- The public `ensure`: rejects a nullish default, returns the value at
(key, path) when it is truthy, else writes the default there via `set`
and returns the default. -/
def Base.ensure (st : BaseState) (key : KeyInput) (dflt : JsValue)
    (path : Option (List String)) : Except BaseError (JsValue × BaseState) :=
  if isNullish dflt then .error .noDefault
  else
    match Base.get st key path with
    | .error e => .error e
    | .ok possibleValue =>
        if truthy possibleValue then .ok (possibleValue, st)
        else
          match Base.set st key dflt path with
          | .error e => .error e
          | .ok st' => .ok (dflt, st')

/-- The public `delete`: reads the whole value at the key; with a path
it applies `_.unset` and persists the result through `set`, returning
the `_.unset` flag; without a path it removes the entry from mirror and
durable store and reports the truthiness of the old value. A boolean
key cannot be bound by the `DELETE` statement; a nullish key matches no
row. -/
def Base.delete (st : BaseState) (key : KeyInput)
    (path : Option (List String)) : Except BaseError (Bool × BaseState) :=
  match Base.get st key none with
  | .error e => .error e
  | .ok data =>
      match path with
      | some p =>
          let res := unsetPath data p
          match Base.set st key res.1 none with
          | .error e => .error e
          | .ok st' => .ok (res.2, st')
      | none =>
          match key with
          | .kbool _ => .error .cannotBind
          | .knull => .ok (truthy data, st)
          | .kundef => .ok (truthy data, st)
          | _ =>
              let k := normKey key
              .ok (truthy data,
                   ⟨removeA st.db k, st.map.map (fun m => removeA m k)⟩)

/-- The public `deleteAll`: clears the durable table and the mirror. -/
def Base.deleteAll (st : BaseState) : BaseState :=
  ⟨[], st.map.map (fun _ => [])⟩

/-- The public `indices` getter: the mirror keys when in memory, else
the keys of the durable rows. -/
def Base.indices (st : BaseState) : List String :=
  match st.map with
  | some m => m.map Prod.fst
  | none => st.db.map Prod.fst

/-- Construction: `fetchEverything` copies every durable row into the
mirror when the in-memory option is not disabled. -/
def Base.init (rows : List (String × JsValue)) (inMemory : Bool) : BaseState :=
  ⟨rows, if inMemory then some rows else none⟩

/-- Splitting a character list on the dot separator. -/
def splitDot : List Char → List (List Char)
  | [] => [[]]
  | c :: rest =>
      if c = '.' then [] :: splitDot rest
      else
        match splitDot rest with
        | [] => [[c]]
        | g :: gs => (c :: g) :: gs

/-- Tokenization of a dot path, as lodash `stringToPath` produces for
the dot-separated paths used throughout the specification. -/
def toPath (s : String) : List String :=
  (splitDot s.data).map (fun cs => ⟨cs⟩)

/-- Every value stored in a row list is a plain JSON tree; this is what
`JSON.parse` guarantees for the durable rows. -/
def dbNormal (l : List (String × JsValue)) : Bool :=
  l.all (fun e => NormalB e.2)

theorem lookupA_upsertA_self (l : List (String × JsValue)) (k : String)
    (v : JsValue) : lookupA (upsertA l k v) k = some v := by
  induction l with
  | nil => simp [upsertA, lookupA]
  | cons e rest ih =>
      obtain ⟨k', v'⟩ := e
      by_cases h : k' = k
      · simp [upsertA, h, lookupA]
      · simp [upsertA, h, lookupA, ih]

theorem lookupA_upsertA_ne (l : List (String × JsValue)) (k k' : String)
    (v : JsValue) (h : k' ≠ k) :
    lookupA (upsertA l k v) k' = lookupA l k' := by
  have h' : ¬ k = k' := fun hh => h hh.symm
  induction l with
  | nil => simp [upsertA, lookupA, h']
  | cons e rest ih =>
      obtain ⟨k0, v0⟩ := e
      by_cases h0 : k0 = k
      · subst h0
        simp [upsertA, lookupA, h']
      · simp [upsertA, h0, lookupA, ih]

theorem upsertA_self (l : List (String × JsValue)) (k : String) (v : JsValue)
    (h : lookupA l k = some v) : upsertA l k v = l := by
  induction l with
  | nil => simp [lookupA] at h
  | cons e rest ih =>
      obtain ⟨k0, v0⟩ := e
      by_cases h0 : k0 = k
      · subst h0
        simp [lookupA] at h
        simp [upsertA, h]
      · simp [lookupA, h0] at h
        simp [upsertA, h0, ih h]

theorem lookupA_removeA_self (l : List (String × JsValue)) (k : String) :
    lookupA (removeA l k) k = none := by
  induction l with
  | nil => simp [removeA, lookupA]
  | cons e rest ih =>
      obtain ⟨k0, v0⟩ := e
      by_cases h0 : k0 = k
      · simpa [removeA, h0] using ih
      · simpa [removeA, lookupA, h0] using ih

theorem dbNormal_cons (k0 : String) (v0 : JsValue)
    (rest : List (String × JsValue)) :
    dbNormal ((k0, v0) :: rest) = (NormalB v0 && dbNormal rest) := by
  simp [dbNormal]

theorem dbNormal_lookupA {l : List (String × JsValue)} {k : String}
    {v : JsValue} (hN : dbNormal l = true) (h : lookupA l k = some v) :
    NormalB v = true := by
  induction l with
  | nil => simp [lookupA] at h
  | cons e rest ih =>
      obtain ⟨k0, v0⟩ := e
      rw [dbNormal_cons, Bool.and_eq_true] at hN
      by_cases h0 : k0 = k
      · simp [lookupA, h0] at h
        subst h
        exact hN.1
      · simp [lookupA, h0] at h
        exact ih hN.2 h

theorem dbNormal_upsertA {l : List (String × JsValue)} {k : String}
    {v : JsValue} (hN : dbNormal l = true) (hv : NormalB v = true) :
    dbNormal (upsertA l k v) = true := by
  induction l with
  | nil => simp [upsertA, dbNormal, hv]
  | cons e rest ih =>
      obtain ⟨k0, v0⟩ := e
      rw [dbNormal_cons, Bool.and_eq_true] at hN
      by_cases h0 : k0 = k
      · simp only [upsertA]
        rw [if_pos h0, dbNormal_cons, Bool.and_eq_true]
        exact ⟨hv, hN.2⟩
      · simp only [upsertA]
        rw [if_neg h0, dbNormal_cons, Bool.and_eq_true]
        exact ⟨hN.1, ih hN.2⟩

theorem removeA_cons (k0 : String) (v0 : JsValue)
    (rest : List (String × JsValue)) (k : String) :
    removeA ((k0, v0) :: rest) k =
      if k0 = k then removeA rest k else (k0, v0) :: removeA rest k := by
  by_cases h0 : k0 = k <;> simp [removeA, List.filter_cons, h0]

theorem dbNormal_removeA {l : List (String × JsValue)} {k : String}
    (hN : dbNormal l = true) : dbNormal (removeA l k) = true := by
  induction l with
  | nil => simp [removeA, dbNormal]
  | cons e rest ih =>
      obtain ⟨k0, v0⟩ := e
      rw [dbNormal_cons, Bool.and_eq_true] at hN
      rw [removeA_cons]
      by_cases h0 : k0 = k
      · simpa [h0] using ih hN.2
      · rw [if_neg h0, dbNormal_cons, Bool.and_eq_true]
        exact ⟨hN.1, ih hN.2⟩

theorem NormalListB_eq_all (es : List JsValue) :
    NormalListB es = es.all NormalB := by
  induction es with
  | nil => simp [NormalListB]
  | cons e rest ih => simp [NormalListB, ih]

theorem NormalFieldsB_eq_all (fs : List (String × JsValue)) :
    NormalFieldsB fs = fs.all (fun kv => NormalB kv.2) := by
  induction fs with
  | nil => simp [NormalFieldsB]
  | cons kv rest ih =>
      obtain ⟨k, v⟩ := kv
      simp [NormalFieldsB, ih]

theorem NormalB_ne_vundef {v : JsValue} (h : NormalB v = true) :
    v ≠ .vundef := by
  intro hh
  subst hh
  simp [NormalB] at h

/-- Numeric value of a digit list, the accumulator form used by
`strToNat`. -/
def digitsVal (ds : List Char) : Nat :=
  ds.foldl (fun acc c => acc * 10 + (c.toNat - 48)) 0

theorem strToNat_eq_digitsVal (s : String) : strToNat s = digitsVal s.data :=
  rfl

theorem isDigit_toNat {c : Char} (h : c.isDigit = true) :
    48 ≤ c.toNat ∧ c.toNat ≤ 57 := by
  simp only [Char.isDigit, Bool.and_eq_true, decide_eq_true_eq] at h
  obtain ⟨h1, h2⟩ := h
  rw [ge_iff_le, UInt32.le_def, BitVec.le_def] at h1
  rw [UInt32.le_def, BitVec.le_def] at h2
  exact ⟨h1, h2⟩

theorem charEq_of_toNat {a b : Char} (h : a.toNat = b.toNat) : a = b := by
  apply Char.ext
  exact UInt32.toNat.inj h

theorem digit_inj {a b : Char} (ha : a.isDigit = true) (hb : b.isDigit = true)
    (h : a.toNat - 48 = b.toNat - 48) : a = b := by
  have h1 := isDigit_toNat ha
  have h2 := isDigit_toNat hb
  apply charEq_of_toNat
  omega

theorem digitsVal_snoc (ds : List Char) (c : Char) :
    digitsVal (ds ++ [c]) = digitsVal ds * 10 + (c.toNat - 48) := by
  simp [digitsVal, List.foldl_append]

theorem foldl_digits_ge_one : ∀ (ds : List Char) (acc : Nat), 1 ≤ acc →
    1 ≤ ds.foldl (fun acc c => acc * 10 + (c.toNat - 48)) acc := by
  intro ds
  induction ds with
  | nil => intro acc h; simpa using h
  | cons c rest ih =>
      intro acc h
      simp only [List.foldl_cons]
      exact ih _ (by omega)

theorem digitsVal_head_pos {c : Char} {rest : List Char} (hne : c ≠ '0')
    (hc : c.isDigit = true) : 1 ≤ digitsVal (c :: rest) := by
  have hb := isDigit_toNat hc
  have h48 : c.toNat ≠ 48 := by
    intro hh
    exact hne (charEq_of_toNat (by rw [hh]; rfl))
  simp only [digitsVal, List.foldl_cons, Nat.zero_mul, Nat.zero_add]
  exact foldl_digits_ge_one rest _ (by omega)

theorem digits_inj : ∀ la lb : List Char,
    la.all Char.isDigit = true → lb.all Char.isDigit = true →
    la ≠ [] → lb ≠ [] →
    (la = ['0'] ∨ la.head? ≠ some '0') →
    (lb = ['0'] ∨ lb.head? ≠ some '0') →
    digitsVal la = digitsVal lb → la = lb := by
  intro la
  induction la using List.reverseRecOn with
  | nil => intro lb _ _ h; exact absurd rfl h
  | append_singleton ds d ih =>
      intro lb hda hdb hna hnb hca hcb hv
      induction lb using List.reverseRecOn with
      | nil => exact absurd rfl hnb
      | append_singleton es e _ =>
          rw [List.all_append, Bool.and_eq_true] at hda hdb
          obtain ⟨hds, hd1⟩ := hda
          obtain ⟨hes, he1⟩ := hdb
          have hdd : d.isDigit = true := by simpa using hd1
          have hde : e.isDigit = true := by simpa using he1
          have hbd := isDigit_toNat hdd
          have hbe := isDigit_toNat hde
          rw [digitsVal_snoc, digitsVal_snoc] at hv
          have hv1 : digitsVal ds = digitsVal es := by omega
          have hv2 : d.toNat - 48 = e.toNat - 48 := by omega
          have hdchar : d = e := digit_inj hdd hde hv2
          subst hdchar
          cases ds with
          | nil =>
              cases es with
              | nil => rfl
              | cons c1 rest1 =>
                  exfalso
                  have hc1d : c1.isDigit = true := by
                    simp [List.all_cons] at hes
                    exact hes.1
                  have hc1 : c1 ≠ '0' := by
                    intro hh
                    subst hh
                    rcases hcb with hcb | hcb
                    · simp at hcb
                    · simp at hcb
                  have hpos : 1 ≤ digitsVal (c1 :: rest1) :=
                    digitsVal_head_pos hc1 hc1d
                  have h0 : digitsVal ([] : List Char) = 0 := rfl
                  omega
          | cons c0 rest0 =>
              cases es with
              | nil =>
                  exfalso
                  have hc0d : c0.isDigit = true := by
                    simp [List.all_cons] at hds
                    exact hds.1
                  have hc0 : c0 ≠ '0' := by
                    intro hh
                    subst hh
                    rcases hca with hca | hca
                    · simp at hca
                    · simp at hca
                  have hpos : 1 ≤ digitsVal (c0 :: rest0) :=
                    digitsVal_head_pos hc0 hc0d
                  have h0 : digitsVal ([] : List Char) = 0 := rfl
                  omega
              | cons c1 rest1 =>
                  have hca' : (c0 :: rest0) = ['0'] ∨
                      (c0 :: rest0).head? ≠ some '0' := by
                    right
                    intro hh
                    simp at hh
                    subst hh
                    rcases hca with hca | hca
                    · simp at hca
                    · simp at hca
                  have hcb' : (c1 :: rest1) = ['0'] ∨
                      (c1 :: rest1).head? ≠ some '0' := by
                    right
                    intro hh
                    simp at hh
                    subst hh
                    rcases hcb with hcb | hcb
                    · simp at hcb
                    · simp at hcb
                  have heq := ih (c1 :: rest1) hds hes (by simp) (by simp)
                    hca' hcb' hv1
                  simp only [List.cons.injEq] at heq
                  rw [heq.1, heq.2]


theorem strEmpty_iff_dataNil (s : String) : s = "" ↔ s.data = [] := by
  constructor
  · intro h; rw [h]
  · intro h
    apply String.ext
    rw [h]

theorem strZero_iff_dataZero (s : String) : s = "0" ↔ s.data = ['0'] := by
  constructor
  · intro h; rw [h]
  · intro h
    apply String.ext
    rw [h]

theorem strToNat_inj {a b : String} (ha : isIndexStr a = true)
    (hb : isIndexStr b = true) (h : strToNat a = strToNat b) : a = b := by
  simp only [isIndexStr, Bool.and_eq_true, Bool.or_eq_true, decide_eq_true_eq,
    ne_eq] at ha hb
  obtain ⟨⟨ha1, ha2⟩, ha3⟩ := ha
  obtain ⟨⟨hb1, hb2⟩, hb3⟩ := hb
  apply String.ext
  apply digits_inj a.data b.data ha1 hb1
  · intro hh
    exact ha2 ((strEmpty_iff_dataNil a).mpr hh)
  · intro hh
    exact hb2 ((strEmpty_iff_dataNil b).mpr hh)
  · rcases ha3 with h3 | h3
    · exact Or.inl ((strZero_iff_dataZero a).mp h3)
    · exact Or.inr h3
  · rcases hb3 with h3 | h3
    · exact Or.inl ((strZero_iff_dataZero b).mp h3)
    · exact Or.inr h3
  · rw [← strToNat_eq_digitsVal, ← strToNat_eq_digitsVal]
    exact h

theorem normalize_normal : ∀ v : JsValue, NormalB v = true → normalize v = v := by
  intro v
  induction v using jsInduction with
  | hundef => intro h; simp [NormalB] at h
  | hnull => intro _; simp [normalize]
  | hbool b => intro _; simp [normalize]
  | hnum n => intro _; simp [normalize]
  | hstr s => intro _; simp [normalize]
  | harr es ih =>
      intro h
      simp only [NormalB, NormalListB_eq_all, List.all_eq_true] at h
      simp only [normalize, JsValue.varr.injEq]
      induction es with
      | nil => simp [normalizeList]
      | cons e rest ihr =>
          simp only [normalizeList, List.cons.injEq]
          exact ⟨ih e (by simp) (h e (by simp)),
            ihr (fun x hx => ih x (by simp [hx]))
              (fun x hx => h x (by simp [hx]))⟩
  | hobj fs ih =>
      intro h
      simp only [NormalB, NormalFieldsB_eq_all, List.all_eq_true] at h
      simp only [normalize, JsValue.vobj.injEq]
      induction fs with
      | nil => simp [normalizeFields]
      | cons kv rest ihr =>
          obtain ⟨k, v⟩ := kv
          have hv : NormalB v = true := h (k, v) (by simp)
          have hvu : isUndef v = false := by
            cases v <;> simp [isUndef] <;> simp [NormalB] at hv
          have h1 : normalize v = v := ih (k, v) (by simp) hv
          have h2 : normalizeFields rest = rest :=
            ihr (fun x hx => ih x (by simp [hx]))
              (fun x hx => h x (by simp [hx]))
          simp [normalizeFields, hvu, h1, h2]

/-- Whether `v[k] = c` writes a mapping field or a sequence slot at most
one past the end: the writes that neither pad a sequence with holes nor
fall into the modelled no-op branch for non-index sequence properties. -/
def canAssign : JsValue → String → Bool
  | .vobj _, _ => true
  | .varr es, k => isIndexStr k && strToNat k ≤ es.length
  | _, _ => false

/-- Whether a `_.set` walk performs only hole-free container writes
(mapping fields, or sequence indices at most one past the end). -/
def setPathOk : JsValue → List String → Bool
  | _, [] => true
  | v, [k] => !isObj v || canAssign v k
  | v, k :: k2 :: rest =>
      !isObj v ||
        (canAssign v k &&
          setPathOk
            (if isObj (childGet v k) then childGet v k else freshContainer k2)
            (k2 :: rest))

/-- Whether a `_.set` walk avoids destructively coercing a text node
that sits at an intermediate position of the path (such a coercion
erases the character locations readable under that node). -/
def noTextCoerce : JsValue → List String → Bool
  | _, [] => true
  | _, [_] => true
  | v, k :: k2 :: rest =>
      (match childGet v k with
       | .vstr _ => false
       | _ => true) &&
      noTextCoerce
        (if isObj (childGet v k) then childGet v k else freshContainer k2)
        (k2 :: rest)

/-- Whether `delete parent[k]` avoids punching a hole into a sequence:
the only `deleteKey` outcome that leaves an `undefined` inside a value. -/
def deleteKeyOk (v : JsValue) (k : String) : Bool :=
  match v with
  | .varr es => !(isIndexStr k && strToNat k < es.length)
  | _ => true

/-- Whether a `_.unset` walk avoids punching a hole into a sequence. -/
def unsetPathOk : JsValue → List String → Bool
  | v, [] => deleteKeyOk v "undefined"
  | v, [k] => deleteKeyOk v k
  | v, k :: k2 :: rest => unsetPathOk (childGet v k) (k2 :: rest)

/-- Whether the first path is an initial segment of the second. -/
def leadsInto : List String → List String → Bool
  | [], _ => true
  | _ :: _, [] => false
  | a :: p, b :: q => a = b && leadsInto p q

/-- The report `_.unset` produces for a path into a value: failure
exactly when the addressed parent is a text node whose `length` or
in-range character slot is targeted, or a sequence whose `length` is
targeted; success in every other case, whether or not the accessor
existed. -/
def unsetReportsTrue (v : JsValue) (p : List String) : Bool :=
  match getPath v p.dropLast, p.getLast? with
  | .vstr s, some k =>
      if k = "length" then false
      else if isIndexStr k = true ∧ strToNat k < s.length then false
      else true
  | .varr _, some k => if k = "length" then false else true
  | _, _ => true

theorem getPath_vundef : ∀ p, getPath .vundef p = .vundef := by
  intro p
  induction p with
  | nil => rfl
  | cons k rest ih => simpa [getPath, childGet] using ih

theorem getD_cons_zero (a : JsValue) (l : List JsValue) (d : JsValue) :
    (a :: l).getD 0 d = a := by
  simp [List.getD]

theorem getD_cons_succ (a : JsValue) (l : List JsValue) (i : Nat)
    (d : JsValue) : (a :: l).getD (i + 1) d = l.getD i d := by
  simp [List.getD]

theorem getD_big : ∀ (l : List JsValue) (i : Nat) (d : JsValue),
    l.length ≤ i → l.getD i d = d := by
  intro l
  induction l with
  | nil => intro i d _; simp [List.getD]
  | cons a t ih =>
      intro i d h
      cases i with
      | zero => simp at h
      | succ j =>
          rw [getD_cons_succ]
          exact ih j d (by simpa using h)

theorem getD_append_left : ∀ (l l' : List JsValue) (i : Nat) (d : JsValue),
    i < l.length → (l ++ l').getD i d = l.getD i d := by
  intro l
  induction l with
  | nil => intro l' i d h; simp at h
  | cons a t ih =>
      intro l' i d h
      cases i with
      | zero => simp [getD_cons_zero]
      | succ j =>
          simp only [List.cons_append, getD_cons_succ]
          exact ih l' j d (by simpa using h)

theorem getD_append_self : ∀ (l : List JsValue) (c d : JsValue),
    (l ++ [c]).getD l.length d = c := by
  intro l
  induction l with
  | nil => intro c d; simp [getD_cons_zero]
  | cons a t ih =>
      intro c d
      simp only [List.cons_append, List.length_cons, getD_cons_succ]
      exact ih c d

theorem getD_append_big : ∀ (l : List JsValue) (c d : JsValue) (i : Nat),
    l.length < i → (l ++ [c]).getD i d = d := by
  intro l
  induction l with
  | nil =>
      intro c d i h
      cases i with
      | zero => simp at h
      | succ j => simp [getD_cons_succ, List.getD]
  | cons a t ih =>
      intro c d i h
      cases i with
      | zero => simp at h
      | succ j =>
          simp only [List.cons_append, getD_cons_succ]
          exact ih c d j (by simpa using h)

theorem getD_set_ne : ∀ (l : List JsValue) (i j : Nat) (c d : JsValue),
    i ≠ j → (l.set i c).getD j d = l.getD j d := by
  intro l
  induction l with
  | nil => intro i j c d _; simp [List.set]
  | cons a t ih =>
      intro i j c d h
      cases i with
      | zero =>
          cases j with
          | zero => exact absurd rfl h
          | succ j' => simp [List.set, getD_cons_succ]
      | succ i' =>
          cases j with
          | zero => simp [List.set, getD_cons_zero]
          | succ j' =>
              simp only [List.set, getD_cons_succ]
              exact ih i' j' c d (by omega)

theorem getD_set_self : ∀ (l : List JsValue) (i : Nat) (c d : JsValue),
    i < l.length → (l.set i c).getD i d = c := by
  intro l
  induction l with
  | nil => intro i c d h; simp at h
  | cons a t ih =>
      intro i c d h
      cases i with
      | zero => simp [List.set, getD_cons_zero]
      | succ i' =>
          simp only [List.set, getD_cons_succ]
          exact ih i' c d (by simpa using h)

theorem childGet_childSet_self {v : JsValue} {k : String} (c : JsValue)
    (hobj : isObj v = true) (hca : canAssign v k = true) :
    childGet (childSet v k c) k = c := by
  cases v with
  | vobj fs => simp [childSet, childGet, lookupA_upsertA_self]
  | varr es =>
      simp only [canAssign, Bool.and_eq_true, decide_eq_true_eq] at hca
      obtain ⟨hidx, hle⟩ := hca
      by_cases hlt : strToNat k < es.length
      · simp only [childSet, hidx, if_true, if_pos hlt, childGet]
        exact getD_set_self es (strToNat k) c .vundef hlt
      · have hlen : strToNat k = es.length := by omega
        simp only [childSet, hidx, if_true]
        rw [if_neg hlt, hlen, Nat.sub_self]
        simp only [List.replicate, List.append_nil, childGet, hidx, if_true]
        rw [hlen]
        exact getD_append_self es c .vundef
  | vundef => simp [isObj] at hobj
  | vnull => simp [isObj] at hobj
  | vbool b => simp [isObj] at hobj
  | vnum n => simp [isObj] at hobj
  | vstr s => simp [isObj] at hobj

theorem childGet_childSet_other {v : JsValue} {k k' : String} (c : JsValue)
    (hca : canAssign v k = true) (hne : k' ≠ k) :
    childGet (childSet v k c) k' = childGet v k' := by
  cases v with
  | vobj fs => simp [childSet, childGet, lookupA_upsertA_ne _ _ _ _ hne]
  | varr es =>
      simp only [canAssign, Bool.and_eq_true, decide_eq_true_eq] at hca
      obtain ⟨hidx, hle⟩ := hca
      by_cases hidx' : isIndexStr k' = true
      · have hnatne : strToNat k' ≠ strToNat k := by
          intro hh
          exact hne (strToNat_inj hidx' hidx hh)
        by_cases hlt : strToNat k < es.length
        · simp only [childSet, hidx, if_true, if_pos hlt, childGet, hidx']
          rw [getD_set_ne es (strToNat k) (strToNat k') c .vundef
            (fun hh => hnatne hh.symm)]
        · have hlen : strToNat k = es.length := by omega
          simp only [childSet, hidx, if_true]
          rw [if_neg hlt, hlen, Nat.sub_self]
          simp only [List.replicate, List.append_nil, childGet, hidx',
            if_true]
          by_cases hlt' : strToNat k' < es.length
          · rw [getD_append_left es [c] _ _ hlt']
          · rw [getD_append_big es c _ _ (by omega),
              getD_big es _ _ (by omega)]
      · simp only [childSet, hidx, if_true, childGet]
        by_cases hlt : strToNat k < es.length
        · simp [hlt, hidx']
        · simp [hlt, hidx']
  | vundef => simp [childSet]
  | vnull => simp [childSet]
  | vbool b => simp [childSet]
  | vnum n => simp [childSet]
  | vstr s => simp [childSet]

theorem NormalFieldsB_eq_dbNormal (fs : List (String × JsValue)) :
    NormalFieldsB fs = dbNormal fs := by
  rw [NormalFieldsB_eq_all]
  rfl

theorem NormalListB_getD {es : List JsValue} (hN : NormalListB es = true)
    (i : Nat) : es.getD i .vundef = .vundef ∨
      NormalB (es.getD i .vundef) = true := by
  induction es generalizing i with
  | nil => left; simp [List.getD]
  | cons e rest ih =>
      simp only [NormalListB, Bool.and_eq_true] at hN
      cases i with
      | zero => right; rw [getD_cons_zero]; exact hN.1
      | succ j => rw [getD_cons_succ]; exact ih hN.2 j

theorem NormalListB_append (a b : List JsValue) :
    NormalListB (a ++ b) = (NormalListB a && NormalListB b) := by
  induction a with
  | nil => simp [NormalListB]
  | cons e rest ih => simp [NormalListB, ih, Bool.and_assoc]

theorem NormalListB_set {es : List JsValue} {c : JsValue}
    (hN : NormalListB es = true) (hc : NormalB c = true) (i : Nat) :
    NormalListB (es.set i c) = true := by
  induction es generalizing i with
  | nil => simp [List.set, NormalListB]
  | cons e rest ih =>
      simp only [NormalListB, Bool.and_eq_true] at hN
      cases i with
      | zero => simp [List.set, NormalListB, hc, hN.2]
      | succ j =>
          simp only [List.set, NormalListB, Bool.and_eq_true]
          exact ⟨hN.1, ih hN.2 j⟩

theorem NormalB_childGet {v : JsValue} (k : String)
    (hN : NormalB v = true) : childGet v k = .vundef ∨
      NormalB (childGet v k) = true := by
  cases v with
  | vobj fs =>
      simp only [childGet]
      cases hl : lookupA fs k with
      | none => left; simp
      | some w =>
          right
          simp only [NormalB, NormalFieldsB_eq_dbNormal] at hN
          simpa using dbNormal_lookupA hN hl
  | varr es =>
      simp only [childGet]
      by_cases hidx : isIndexStr k = true
      · simp only [hidx, if_true]
        simp only [NormalB] at hN
        exact NormalListB_getD hN (strToNat k)
      · left; simp [hidx]
  | vstr s =>
      simp only [childGet]
      by_cases hidx : isIndexStr k = true
      · simp only [hidx, if_true]
        cases s.data.get? (strToNat k) with
        | none => left; rfl
        | some c => right; rfl
      · left; simp [hidx]
  | vundef => left; rfl
  | vnull => left; rfl
  | vbool b => left; rfl
  | vnum n => left; rfl

theorem childSet_normal {v c : JsValue} {k : String} (hN : NormalB v = true)
    (hc : NormalB c = true) (hca : canAssign v k = true) :
    NormalB (childSet v k c) = true := by
  cases v with
  | vobj fs =>
      simp only [childSet, NormalB, NormalFieldsB_eq_dbNormal] at hN ⊢
      exact dbNormal_upsertA hN hc
  | varr es =>
      simp only [canAssign, Bool.and_eq_true, decide_eq_true_eq] at hca
      obtain ⟨hidx, hle⟩ := hca
      simp only [NormalB] at hN
      by_cases hlt : strToNat k < es.length
      · simp only [childSet, hidx, if_true, if_pos hlt, NormalB]
        exact NormalListB_set hN hc (strToNat k)
      · have hlen : strToNat k = es.length := by omega
        simp only [childSet, hidx, if_true]
        rw [if_neg hlt, hlen, Nat.sub_self]
        simp only [List.replicate, List.append_nil, NormalB,
          NormalListB_append, Bool.and_eq_true]
        exact ⟨hN, by simp [NormalListB, hc]⟩
  | vundef => simp [canAssign] at hca
  | vnull => simp [canAssign] at hca
  | vbool b => simp [canAssign] at hca
  | vnum n => simp [canAssign] at hca
  | vstr s => simp [canAssign] at hca

theorem isObj_freshContainer (k2 : String) :
    isObj (freshContainer k2) = true := by
  by_cases h : isIndexStr k2 = true <;> simp [freshContainer, h, isObj]

theorem NormalB_freshContainer (k2 : String) :
    NormalB (freshContainer k2) = true := by
  by_cases h : isIndexStr k2 = true <;>
    simp [freshContainer, h, NormalB, NormalListB, NormalFieldsB]

theorem setPath_normal : ∀ (p : List String) (v leaf : JsValue),
    NormalB v = true → NormalB leaf = true → setPathOk v p = true →
    NormalB (setPath v p leaf) = true := by
  intro p
  induction p with
  | nil => intro v leaf hv _ _; simpa [setPath] using hv
  | cons k rest ih =>
      intro v leaf hv hleaf hok
      cases rest with
      | nil =>
          by_cases hobj : isObj v = true
          · simp only [setPathOk, hobj, Bool.not_true, Bool.false_or] at hok
            simp only [setPath, hobj, if_true]
            exact childSet_normal hv hleaf hok
          · simp only [setPath]
            rw [if_neg hobj]
            exact hv
      | cons k2 rest' =>
          by_cases hobj : isObj v = true
          · simp only [setPathOk, hobj, Bool.not_true, Bool.false_or,
              Bool.and_eq_true] at hok
            obtain ⟨hca, hok'⟩ := hok
            simp only [setPath, hobj, if_true]
            apply childSet_normal hv _ hca
            by_cases hco : isObj (childGet v k) = true
            · rw [if_pos hco] at hok' ⊢
              apply ih _ leaf _ hleaf hok'
              rcases NormalB_childGet k hv with h | h
              · rw [h] at hco; simp [isObj] at hco
              · exact h
            · rw [if_neg hco] at hok' ⊢
              exact ih _ leaf (NormalB_freshContainer k2) hleaf hok'
          · simp only [setPath]
            rw [if_neg hobj]
            exact hv

theorem setPath_get : ∀ (p : List String) (v leaf : JsValue),
    p ≠ [] → isObj v = true → setPathOk v p = true →
    getPath (setPath v p leaf) p = leaf := by
  intro p
  induction p with
  | nil => intro v leaf h; exact absurd rfl h
  | cons k rest ih =>
      intro v leaf _ hobj hok
      cases rest with
      | nil =>
          simp only [setPathOk, hobj, Bool.not_true, Bool.false_or] at hok
          simp only [setPath, hobj, if_true, getPath]
          rw [childGet_childSet_self leaf hobj hok]
      | cons k2 rest' =>
          simp only [setPathOk, hobj, Bool.not_true, Bool.false_or,
            Bool.and_eq_true] at hok
          obtain ⟨hca, hok'⟩ := hok
          simp only [setPath, hobj, if_true, getPath]
          rw [childGet_childSet_self _ hobj hca]
          by_cases hco : isObj (childGet v k) = true
          · rw [if_pos hco] at hok' ⊢
            exact ih _ leaf (by simp) hco hok'
          · rw [if_neg hco] at hok' ⊢
            exact ih _ leaf (by simp) (isObj_freshContainer k2) hok'

theorem getPath_nonContainer : ∀ (q : List String) (v : JsValue),
    isObj v = false → (∀ s, v ≠ .vstr s) → q ≠ [] →
    getPath v q = .vundef := by
  intro q v hobj hstr hq
  cases q with
  | nil => exact absurd rfl hq
  | cons k q' =>
      have hcg : childGet v k = .vundef := by
        cases v with
        | vundef => rfl
        | vnull => rfl
        | vbool b => rfl
        | vnum n => rfl
        | vstr s => exact absurd rfl (hstr s)
        | varr es => simp [isObj] at hobj
        | vobj fs => simp [isObj] at hobj
      rw [getPath, hcg, getPath_vundef]

theorem setPath_frame : ∀ (p q : List String) (v leaf : JsValue),
    isObj v = true → setPathOk v p = true → noTextCoerce v p = true →
    p ≠ [] → leadsInto p q = false → leadsInto q p = false →
    getPath v q ≠ .vundef →
    getPath (setPath v p leaf) q = getPath v q := by
  intro p
  induction p with
  | nil => intro q v leaf _ _ _ h; exact absurd rfl h
  | cons k rest ih =>
      intro q v leaf hobj hok hnt _ hpq hqp hq
      cases q with
      | nil => simp [leadsInto] at hqp
      | cons q1 q' =>
          by_cases hq1 : q1 = k
          · subst hq1
            cases rest with
            | nil => simp [leadsInto] at hpq
            | cons k2 rest' =>
                cases q' with
                | nil => simp [leadsInto] at hqp
                | cons q2 q'' =>
                    simp only [setPathOk, hobj, Bool.not_true,
                      Bool.false_or, Bool.and_eq_true] at hok
                    obtain ⟨hca, hok'⟩ := hok
                    simp only [leadsInto, decide_eq_true_eq, true_and,
                      Bool.and_eq_true] at hpq hqp
                    have hpq' : leadsInto (k2 :: rest') (q2 :: q'') = false := by
                      simpa [leadsInto] using hpq
                    have hqp' : leadsInto (q2 :: q'') (k2 :: rest') = false := by
                      simpa [leadsInto] using hqp
                    simp only [setPath, hobj, if_true, getPath]
                    rw [childGet_childSet_self _ hobj hca]
                    rw [getPath] at hq
                    by_cases hco : isObj (childGet v q1) = true
                    · rw [if_pos hco] at hok' ⊢
                      have hnt' : noTextCoerce (childGet v q1)
                          (k2 :: rest') = true := by
                        simp only [noTextCoerce, Bool.and_eq_true] at hnt
                        rw [if_pos hco] at hnt
                        exact hnt.2
                      exact ih (q2 :: q'') (childGet v q1) leaf hco hok'
                        hnt' (by simp) hpq' hqp' hq
                    · exfalso
                      apply hq
                      apply getPath_nonContainer _ _ (by simpa using hco)
                        _ (by simp)
                      intro s hs
                      simp only [noTextCoerce, Bool.and_eq_true] at hnt
                      rw [hs] at hnt
                      simpa using hnt.1
          · cases rest with
            | nil =>
                simp only [setPathOk, hobj, Bool.not_true,
                  Bool.false_or] at hok
                simp only [setPath, hobj, if_true, getPath]
                rw [childGet_childSet_other leaf hok hq1]
            | cons k2 rest' =>
                simp only [setPathOk, hobj, Bool.not_true, Bool.false_or,
                  Bool.and_eq_true] at hok
                simp only [setPath, hobj, if_true, getPath]
                rw [childGet_childSet_other _ hok.1 hq1]

theorem isUndef_childSet (v : JsValue) (k : String) (c : JsValue) :
    isUndef (childSet v k c) = isUndef v := by
  cases v with
  | vobj fs => rfl
  | varr es =>
      by_cases hidx : isIndexStr k = true
      · by_cases hlt : strToNat k < es.length
        · simp [childSet, hidx, hlt, isUndef]
        · simp [childSet, hidx, hlt, isUndef]
      · simp [childSet, hidx]
  | vundef => rfl
  | vnull => rfl
  | vbool b => rfl
  | vnum n => rfl
  | vstr s => rfl

theorem isUndef_deleteKey (v : JsValue) (k : String) :
    isUndef (deleteKey v k).1 = isUndef v := by
  cases v with
  | vobj fs => rfl
  | varr es =>
      by_cases hl : k = "length"
      · simp [deleteKey, hl, isUndef]
      · by_cases hidx : isIndexStr k = true
        · by_cases hlt : strToNat k < es.length
          · simp [deleteKey, hl, hidx, hlt, isUndef]
          · simp [deleteKey, hl, hidx, hlt, isUndef]
        · simp [deleteKey, hl, hidx, isUndef]
  | vstr s =>
      by_cases hl : k = "length"
      · simp [deleteKey, hl, isUndef]
      · by_cases hx : isIndexStr k = true ∧ strToNat k < s.length
        · simp [deleteKey, hl, hx, isUndef]
        · simp [deleteKey, hl, hx, isUndef]
  | vundef => rfl
  | vnull => rfl
  | vbool b => rfl
  | vnum n => rfl

theorem isUndef_unsetPath : ∀ (p : List String) (v : JsValue),
    isUndef (unsetPath v p).1 = isUndef v := by
  intro p
  induction p with
  | nil => intro v; exact isUndef_deleteKey v "undefined"
  | cons k rest ih =>
      intro v
      cases rest with
      | nil => exact isUndef_deleteKey v k
      | cons k2 rest' =>
          simp only [unsetPath]
          by_cases hco : isObj (childGet v k) = true
          · rw [if_pos hco]
            exact isUndef_childSet v k _
          · rw [if_neg hco]

theorem canAssign_of_childGet_isObj {v : JsValue} {k : String}
    (h : isObj (childGet v k) = true) : canAssign v k = true := by
  cases v with
  | vobj fs => rfl
  | varr es =>
      by_cases hidx : isIndexStr k = true
      · by_cases hlt : strToNat k < es.length
        · simp [canAssign, hidx]; omega
        · rw [childGet, if_pos hidx, getD_big es _ _ (by omega)] at h
          simp [isObj] at h
      · rw [childGet, if_neg hidx] at h
        simp [isObj] at h
  | vstr s =>
      rw [childGet] at h
      by_cases hidx : isIndexStr k = true
      · rw [if_pos hidx] at h
        cases hg : s.data.get? (strToNat k) with
        | none => rw [hg] at h; simp [isObj] at h
        | some c => rw [hg] at h; simp [isObj] at h
      · rw [if_neg hidx] at h
        simp [isObj] at h
  | vundef => simp [childGet, isObj] at h
  | vnull => simp [childGet, isObj] at h
  | vbool b => simp [childGet, isObj] at h
  | vnum n => simp [childGet, isObj] at h

theorem deleteKey_normal {v : JsValue} {k : String} (hN : NormalB v = true)
    (hok : deleteKeyOk v k = true) : NormalB (deleteKey v k).1 = true := by
  cases v with
  | vobj fs =>
      simp only [deleteKey, NormalB, NormalFieldsB_eq_dbNormal] at hN ⊢
      exact dbNormal_removeA hN
  | varr es =>
      by_cases hl : k = "length"
      · simpa [deleteKey, hl] using hN
      · by_cases hidx : isIndexStr k = true
        · by_cases hlt : strToNat k < es.length
          · exfalso
            simp [deleteKeyOk, hidx, hlt] at hok
          · simpa [deleteKey, hl, hidx, hlt] using hN
        · simpa [deleteKey, hl, hidx] using hN
  | vstr s =>
      by_cases hl : k = "length"
      · simpa [deleteKey, hl] using hN
      · by_cases hx : isIndexStr k = true ∧ strToNat k < s.length
        · simpa [deleteKey, hl, hx] using hN
        · simpa [deleteKey, hl, hx] using hN
  | vundef => simp [NormalB] at hN
  | vnull => simpa [deleteKey] using hN
  | vbool b => simpa [deleteKey] using hN
  | vnum n => simpa [deleteKey] using hN

theorem unsetPath_normal : ∀ (p : List String) (v : JsValue),
    NormalB v = true → unsetPathOk v p = true →
    NormalB (unsetPath v p).1 = true := by
  intro p
  induction p with
  | nil => intro v hN hok; exact deleteKey_normal hN hok
  | cons k rest ih =>
      intro v hN hok
      cases rest with
      | nil => exact deleteKey_normal hN hok
      | cons k2 rest' =>
          simp only [unsetPath]
          by_cases hco : isObj (childGet v k) = true
          · rw [if_pos hco]
            have hchild : NormalB (childGet v k) = true := by
              rcases NormalB_childGet k hN with h | h
              · rw [h] at hco; simp [isObj] at hco
              · exact h
            apply childSet_normal hN _ (canAssign_of_childGet_isObj hco)
            exact ih (childGet v k) hchild hok
          · rw [if_neg hco]
            exact hN

theorem unset_flag_eq : ∀ (p : List String) (v : JsValue),
    (unsetPath v p).2 = unsetReportsTrue v p := by
  intro p
  induction p with
  | nil =>
      intro v
      cases v <;> rfl
  | cons k rest ih =>
      intro v
      cases rest with
      | nil =>
          cases v with
          | vobj fs => rfl
          | varr es =>
              simp only [unsetPath, deleteKey, unsetReportsTrue,
                List.dropLast_single, getPath, List.getLast?_singleton]
              by_cases hl : k = "length"
              · simp [hl]
              · by_cases hidx : isIndexStr k = true
                · by_cases hlt : strToNat k < es.length
                  · simp [hl, hidx, hlt]
                  · simp [hl, hidx, hlt]
                · simp [hl, hidx]
          | vstr s =>
              simp only [unsetPath, deleteKey, unsetReportsTrue,
                List.dropLast_single, getPath, List.getLast?_singleton]
              by_cases hl : k = "length"
              · simp [hl]
              · by_cases hx : isIndexStr k = true ∧ strToNat k < s.length
                · simp [hl, hx]
                · simp [hl, hx]
          | vundef => rfl
          | vnull => rfl
          | vbool b => rfl
          | vnum n => rfl
      | cons k2 rest' =>
          have h1 : (unsetPath v (k :: k2 :: rest')).2 =
              (unsetPath (childGet v k) (k2 :: rest')).2 := rfl
          rw [h1, ih]
          simp only [unsetReportsTrue, List.dropLast_cons₂,
            List.getLast?_cons_cons, getPath]

/-- One facade call with its arguments. -/
inductive Op where
  | get (k : KeyInput) (p : Option (List String)) : Op
  | set (k : KeyInput) (v : JsValue) (p : Option (List String)) : Op
  | ensure (k : KeyInput) (v : JsValue) (p : Option (List String)) : Op
  | del (k : KeyInput) (p : Option (List String)) : Op
  | delAll : Op
  | keys : Op
  deriving Repr, DecidableEq

/-- The observable outcome of one facade call. -/
inductive Out where
  | val (v : JsValue) : Out
  | flag (b : Bool) : Out
  | names (ks : List String) : Out
  | unit : Out
  | err (e : BaseError) : Out
  deriving Repr, DecidableEq

/-- Run one facade call; a thrown error leaves the state unchanged. -/
def runOp (st : BaseState) : Op → Out × BaseState
  | .get k p =>
      match Base.get st k p with
      | .ok v => (.val v, st)
      | .error e => (.err e, st)
  | .set k v p =>
      match Base.set st k v p with
      | .ok st' => (.unit, st')
      | .error e => (.err e, st)
  | .ensure k v p =>
      match Base.ensure st k v p with
      | .ok r => (.val r.1, r.2)
      | .error e => (.err e, st)
  | .del k p =>
      match Base.delete st k p with
      | .ok r => (.flag r.1, r.2)
      | .error e => (.err e, st)
  | .delAll => (.unit, Base.deleteAll st)
  | .keys => (.names (Base.indices st), st)

/-- Run a sequence of facade calls, collecting every outcome. -/
def runOps (st : BaseState) : List Op → List Out × BaseState
  | [] => ([], st)
  | op :: ops =>
      let r := runOp st op
      let rest := runOps r.2 ops
      (r.1 :: rest.1, rest.2)

/-- Whether one facade call keeps the stored live values in the plain
JSON fragment where mirror and store coincide: text or numeric keys,
plain JSON value arguments, `_.set` walks without holes or non-index
sequence properties, and no `_.unset` that punches a hole into a
sequence. -/
def okOp (st : BaseState) : Op → Bool
  | .get k _ => keyValid k
  | .set k v p =>
      keyValid k && NormalB v &&
        (match p with
         | none => true
         | some pp => setPathOk (rootFor st (normKey k)) pp)
  | .ensure k v p =>
      keyValid k && NormalB v &&
        (match p with
         | none => true
         | some pp => setPathOk (rootFor st (normKey k)) pp)
  | .del k p =>
      keyValid k &&
        (match p with
         | none => true
         | some pp => unsetPathOk (getValueObjectAtKey st (normKey k)) pp)
  | .delAll => true
  | .keys => true

/-- Whether every call of a sequence satisfies `okOp` in the state it
actually observes. -/
def okRun (st : BaseState) : List Op → Bool
  | [] => true
  | op :: ops => okOp st op && okRun (runOp st op).2 ops

/-- Pointwise serialization of a row list: what the durable store holds
when the mirror holds the live values. -/
def normEntries (l : List (String × JsValue)) : List (String × JsValue) :=
  l.map (fun e => (e.1, normalize e.2))

theorem normEntries_upsertA (m : List (String × JsValue)) (k : String)
    (v : JsValue) :
    normEntries (upsertA m k v) = upsertA (normEntries m) k (normalize v) := by
  induction m with
  | nil => simp [normEntries, upsertA]
  | cons e rest ih =>
      obtain ⟨k0, v0⟩ := e
      by_cases h0 : k0 = k
      · simp [upsertA, h0, normEntries]
      · simp only [upsertA, if_neg h0, normEntries, List.map_cons]
        simp only [normEntries] at ih
        rw [ih]

theorem normEntries_removeA (m : List (String × JsValue)) (k : String) :
    normEntries (removeA m k) = removeA (normEntries m) k := by
  induction m with
  | nil => simp [normEntries, removeA]
  | cons e rest ih =>
      obtain ⟨k0, v0⟩ := e
      rw [removeA_cons]
      by_cases h0 : k0 = k
      · rw [if_pos h0, ih]
        simp only [normEntries, List.map_cons]
        rw [removeA_cons, if_pos h0]
      · rw [if_neg h0]
        simp only [normEntries, List.map_cons]
        rw [removeA_cons, if_neg h0]
        simp only [normEntries] at ih
        rw [ih]

theorem normEntries_lookupA (m : List (String × JsValue)) (k : String) :
    lookupA (normEntries m) k = (lookupA m k).map normalize := by
  induction m with
  | nil => simp [normEntries, lookupA]
  | cons e rest ih =>
      obtain ⟨k0, v0⟩ := e
      by_cases h0 : k0 = k
      · simp [normEntries, lookupA, h0]
      · simp only [normEntries, List.map_cons, lookupA, h0, if_neg h0]
        exact ih

theorem normEntries_self {l : List (String × JsValue)}
    (hN : dbNormal l = true) : normEntries l = l := by
  induction l with
  | nil => rfl
  | cons e rest ih =>
      obtain ⟨k0, v0⟩ := e
      rw [dbNormal_cons, Bool.and_eq_true] at hN
      simp only [normEntries, List.map_cons]
      rw [normalize_normal v0 hN.1]
      simp only [normEntries] at ih
      rw [ih hN.2]

theorem runOp_get_state (st : BaseState) (k : KeyInput)
    (p : Option (List String)) : (runOp st (.get k p)).2 = st := by
  simp only [runOp]
  cases Base.get st k p <;> rfl

theorem set_mirror (m : List (String × JsValue)) (key : KeyInput)
    (v : JsValue) (p : Option (List String)) :
    (∃ e, Base.set ⟨normEntries m, some m⟩ key v p = .error e) ∨
    (∃ m', Base.set ⟨normEntries m, some m⟩ key v p =
      .ok ⟨normEntries m', some m'⟩) := by
  by_cases hk : keyValid key = true
  · cases p with
    | none =>
        by_cases hu : isUndef v = true
        · left
          exact ⟨.cannotBind, by simp [Base.set, hk, hu]⟩
        · right
          refine ⟨upsertA m (normKey key) v, ?_⟩
          simp only [Base.set, hk, if_true, hu, Bool.false_eq_true,
            if_false, Option.map_some]
          rw [normEntries_upsertA]
          simp [hu]
    | some pp =>
        by_cases hu :
            isUndef (setPath (rootFor ⟨normEntries m, some m⟩
              (normKey key)) pp v) = true
        · left
          exact ⟨.cannotBind, by simp [Base.set, hk, hu]⟩
        · right
          refine ⟨upsertA m (normKey key)
            (setPath (rootFor ⟨normEntries m, some m⟩ (normKey key)) pp v),
            ?_⟩
          simp only [Base.set, hk, if_true, hu, Bool.false_eq_true,
            if_false, Option.map_some]
          rw [normEntries_upsertA]
          simp [hu]
  · left
    exact ⟨.invalidKey, by simp [Base.set, hk]⟩

theorem mirror_step (op : Op) (m : List (String × JsValue)) :
    ∃ m', (runOp ⟨normEntries m, some m⟩ op).2 = ⟨normEntries m', some m'⟩ := by
  cases op with
  | get k p =>
      exact ⟨m, by rw [runOp_get_state]⟩
  | set k v p =>
      rcases set_mirror m k v p with ⟨e, he⟩ | ⟨m', hm'⟩
      · exact ⟨m, by simp [runOp, he]⟩
      · exact ⟨m', by simp [runOp, hm']⟩
  | ensure k v p =>
      by_cases hd : isNullish v = true
      · exact ⟨m, by simp [runOp, Base.ensure, hd]⟩
      · cases hg : Base.get ⟨normEntries m, some m⟩ k p with
        | error e => exact ⟨m, by simp [runOp, Base.ensure, hd, hg]⟩
        | ok pv =>
            by_cases ht : truthy pv = true
            · exact ⟨m, by simp [runOp, Base.ensure, hd, hg, ht]⟩
            · rcases set_mirror m k v p with ⟨e, he⟩ | ⟨m', hm'⟩
              · exact ⟨m, by simp [runOp, Base.ensure, hd, hg, ht, he]⟩
              · exact ⟨m', by simp [runOp, Base.ensure, hd, hg, ht, hm']⟩
  | del k p =>
      cases hg : Base.get ⟨normEntries m, some m⟩ k none with
      | error e => exact ⟨m, by simp [runOp, Base.delete, hg]⟩
      | ok data =>
          cases p with
          | some pp =>
              rcases set_mirror m k (unsetPath data pp).1 none with
                ⟨e, he⟩ | ⟨m', hm'⟩
              · exact ⟨m, by simp [runOp, Base.delete, hg, he]⟩
              · exact ⟨m', by simp [runOp, Base.delete, hg, hm']⟩
          | none =>
              cases k with
              | kbool b => exact ⟨m, by simp [runOp, Base.delete, hg]⟩
              | knull => exact ⟨m, by simp [runOp, Base.delete, hg]⟩
              | kundef => exact ⟨m, by simp [runOp, Base.delete, hg]⟩
              | kstr s =>
                  refine ⟨removeA m s, ?_⟩
                  simp only [runOp, Base.delete, hg]
                  rw [normEntries_removeA]
                  simp [normKey]
              | knum n =>
                  refine ⟨removeA m (normKey (.knum n)), ?_⟩
                  simp only [runOp, Base.delete, hg]
                  rw [normEntries_removeA]
                  simp [normKey]
  | delAll =>
      exact ⟨[], by simp [runOp, Base.deleteAll, normEntries]⟩
  | keys =>
      exact ⟨m, rfl⟩

theorem mirror_runOps : ∀ (ops : List Op) (m : List (String × JsValue)),
    ∃ m', (runOps ⟨normEntries m, some m⟩ ops).2 =
      ⟨normEntries m', some m'⟩ := by
  intro ops
  induction ops with
  | nil => intro m; exact ⟨m, rfl⟩
  | cons op rest ih =>
      intro m
      obtain ⟨m1, hm1⟩ := mirror_step op m
      obtain ⟨m2, hm2⟩ := ih m1
      refine ⟨m2, ?_⟩
      simp only [runOps]
      rw [hm1]
      exact hm2

theorem NormalB_not_isUndef {v : JsValue} (h : NormalB v = true) :
    isUndef v = false := by
  cases v with
  | vundef => simp [NormalB] at h
  | vnull => rfl
  | vbool b => rfl
  | vnum n => rfl
  | vstr s => rfl
  | varr es => rfl
  | vobj fs => rfl

theorem get_valid (st : BaseState) (key : KeyInput)
    (p : Option (List String)) (hk : keyValid key = true) :
    Base.get st key p = .ok (match p with
      | some pp => getPath (getValueObjectAtKey st (normKey key)) pp
      | none => getValueObjectAtKey st (normKey key)) := by
  cases key with
  | kstr s => rfl
  | knum n => rfl
  | kbool b => simp [keyValid] at hk
  | knull => simp [keyValid] at hk
  | kundef => simp [keyValid] at hk

theorem gvoak_mirror (d : List (String × JsValue)) (k : String) :
    getValueObjectAtKey ⟨d, some d⟩ k = getValueObjectAtKey ⟨d, none⟩ k :=
  rfl

theorem rootFor_mirror (d : List (String × JsValue)) (k : String) :
    rootFor ⟨d, some d⟩ k = rootFor ⟨d, none⟩ k :=
  rfl

theorem cur_cases {d : List (String × JsValue)} (hd : dbNormal d = true)
    (k : String) :
    getValueObjectAtKey ⟨d, none⟩ k = .vundef ∨
      NormalB (getValueObjectAtKey ⟨d, none⟩ k) = true := by
  simp only [getValueObjectAtKey]
  cases hl : lookupA d k with
  | none => left; rfl
  | some w => right; simpa using dbNormal_lookupA hd hl

theorem rootFor_normal {d : List (String × JsValue)} (hd : dbNormal d = true)
    (k : String) : NormalB (rootFor ⟨d, none⟩ k) = true := by
  simp only [rootFor]
  by_cases hn : isNullish (getValueObjectAtKey ⟨d, none⟩ k) = true
  · simp [hn, NormalB, NormalFieldsB]
  · simp only [hn, Bool.false_eq_true, if_false]
    rcases cur_cases hd k with h | h
    · rw [h] at hn; simp [isNullish] at hn
    · exact h

theorem set_modes (d : List (String × JsValue)) (key : KeyInput)
    (v : JsValue) (p : Option (List String)) (hk : keyValid key = true)
    (hd : dbNormal d = true) (hv : NormalB v = true)
    (hok : match p with
      | none => True
      | some pp => setPathOk (rootFor ⟨d, none⟩ (normKey key)) pp = true) :
    ∃ d', Base.set ⟨d, some d⟩ key v p = .ok ⟨d', some d'⟩ ∧
      Base.set ⟨d, none⟩ key v p = .ok ⟨d', none⟩ ∧ dbNormal d' = true := by
  cases p with
  | none =>
      have hu : isUndef v = false := NormalB_not_isUndef hv
      refine ⟨upsertA d (normKey key) v, ?_, ?_, dbNormal_upsertA hd hv⟩
      · simp only [Base.set, hk, if_true, hu, Bool.false_eq_true, if_false]
        rw [normalize_normal v hv]
        rfl
      · simp only [Base.set, hk, if_true, hu, Bool.false_eq_true, if_false]
        rw [normalize_normal v hv]
        rfl
  | some pp =>
      have hroot : NormalB (rootFor ⟨d, none⟩ (normKey key)) = true :=
        rootFor_normal hd (normKey key)
      have hw : NormalB (setPath (rootFor ⟨d, none⟩ (normKey key)) pp v)
          = true := setPath_normal pp _ v hroot hv hok
      have hu : isUndef (setPath (rootFor ⟨d, none⟩ (normKey key)) pp v)
          = false := NormalB_not_isUndef hw
      refine ⟨upsertA d (normKey key)
        (setPath (rootFor ⟨d, none⟩ (normKey key)) pp v), ?_, ?_,
        dbNormal_upsertA hd hw⟩
      · simp only [Base.set, hk, if_true, rootFor_mirror, hu,
          Bool.false_eq_true, if_false]
        rw [normalize_normal _ hw]
        rfl
      · simp only [Base.set, hk, if_true, hu, Bool.false_eq_true, if_false]
        rw [normalize_normal _ hw]
        rfl

theorem modes_step (op : Op) (d : List (String × JsValue))
    (hd : dbNormal d = true) (hok : okOp ⟨d, some d⟩ op = true) :
    ∃ o d', runOp ⟨d, some d⟩ op = (o, ⟨d', some d'⟩) ∧
      runOp ⟨d, none⟩ op = (o, ⟨d', none⟩) ∧ dbNormal d' = true := by
  cases op with
  | get k p =>
      simp only [okOp] at hok
      refine ⟨.val (match p with
        | some pp => getPath ((lookupA d (normKey k)).getD .vundef) pp
        | none => (lookupA d (normKey k)).getD .vundef), d, ?_, ?_, hd⟩
      · simp only [runOp, get_valid _ k p hok, getValueObjectAtKey]
      · simp only [runOp, get_valid _ k p hok, getValueObjectAtKey]
  | set k v p =>
      simp only [okOp, Bool.and_eq_true] at hok
      obtain ⟨⟨hk, hv⟩, hokp⟩ := hok
      cases p with
      | none =>
          obtain ⟨d', h1, h2, h3⟩ := set_modes d k v none hk hd hv trivial
          exact ⟨.unit, d', by simp [runOp, h1], by simp [runOp, h2], h3⟩
      | some pp =>
          obtain ⟨d', h1, h2, h3⟩ := set_modes d k v (some pp) hk hd hv hokp
          exact ⟨.unit, d', by simp [runOp, h1], by simp [runOp, h2], h3⟩
  | ensure k v p =>
      simp only [okOp, Bool.and_eq_true] at hok
      obtain ⟨⟨hk, hv⟩, hokp⟩ := hok
      by_cases hdn : isNullish v = true
      · refine ⟨.err .noDefault, d, ?_, ?_, hd⟩
        · simp [runOp, Base.ensure, hdn]
        · simp [runOp, Base.ensure, hdn]
      · cases p with
        | none =>
            by_cases ht :
                truthy ((lookupA d (normKey k)).getD .vundef) = true
            · refine ⟨.val ((lookupA d (normKey k)).getD .vundef), d,
                ?_, ?_, hd⟩
              · simp only [runOp, Base.ensure, hdn, Bool.false_eq_true,
                  if_false, get_valid _ k none hk, getValueObjectAtKey,
                  ht, if_true]
              · simp only [runOp, Base.ensure, hdn, Bool.false_eq_true,
                  if_false, get_valid _ k none hk, getValueObjectAtKey,
                  ht, if_true]
            · obtain ⟨d', h1, h2, h3⟩ :=
                set_modes d k v none hk hd hv trivial
              refine ⟨.val v, d', ?_, ?_, h3⟩
              · simp only [runOp, Base.ensure, hdn, Bool.false_eq_true,
                  if_false, get_valid _ k none hk, getValueObjectAtKey,
                  ht, h1]
              · simp only [runOp, Base.ensure, hdn, Bool.false_eq_true,
                  if_false, get_valid _ k none hk, getValueObjectAtKey,
                  ht, h2]
        | some pp =>
            by_cases ht : truthy
                (getPath ((lookupA d (normKey k)).getD .vundef) pp) = true
            · refine ⟨.val
                (getPath ((lookupA d (normKey k)).getD .vundef) pp), d,
                ?_, ?_, hd⟩
              · simp only [runOp, Base.ensure, hdn, Bool.false_eq_true,
                  if_false, get_valid _ k (some pp) hk,
                  getValueObjectAtKey, ht, if_true]
              · simp only [runOp, Base.ensure, hdn, Bool.false_eq_true,
                  if_false, get_valid _ k (some pp) hk,
                  getValueObjectAtKey, ht, if_true]
            · obtain ⟨d', h1, h2, h3⟩ :=
                set_modes d k v (some pp) hk hd hv hokp
              refine ⟨.val v, d', ?_, ?_, h3⟩
              · simp only [runOp, Base.ensure, hdn, Bool.false_eq_true,
                  if_false, get_valid _ k (some pp) hk,
                  getValueObjectAtKey, ht, h1]
              · simp only [runOp, Base.ensure, hdn, Bool.false_eq_true,
                  if_false, get_valid _ k (some pp) hk,
                  getValueObjectAtKey, ht, h2]
  | del k p =>
      simp only [okOp, Bool.and_eq_true] at hok
      obtain ⟨hk, hokp⟩ := hok
      cases p with
      | some pp =>
          cases hl : lookupA d (normKey k) with
          | none =>
              refine ⟨.err .cannotBind, d, ?_, ?_, hd⟩
              · have hu : isUndef (unsetPath
                    ((lookupA d (normKey k)).getD .vundef) pp).1 = true := by
                  rw [hl, isUndef_unsetPath]
                  rfl
                simp only [runOp, Base.delete, get_valid _ k none hk,
                  getValueObjectAtKey, Base.set, hk, if_true, hu]
              · have hu : isUndef (unsetPath
                    ((lookupA d (normKey k)).getD .vundef) pp).1 = true := by
                  rw [hl, isUndef_unsetPath]
                  rfl
                simp only [runOp, Base.delete, get_valid _ k none hk,
                  getValueObjectAtKey, Base.set, hk, if_true, hu]
          | some w =>
              have hw : NormalB w = true := dbNormal_lookupA hd hl
              have hok2 : unsetPathOk w pp = true := by
                have := hokp
                simp only [getValueObjectAtKey, hl] at this
                simpa using this
              have hwn : NormalB (unsetPath w pp).1 = true :=
                unsetPath_normal pp w hw hok2
              obtain ⟨d', h1, h2, h3⟩ := set_modes d k (unsetPath w pp).1
                none hk hd hwn trivial
              refine ⟨.flag (unsetPath w pp).2, d', ?_, ?_, h3⟩
              · simp only [runOp, Base.delete, get_valid _ k none hk,
                  getValueObjectAtKey, hl, Option.getD_some, h1]
              · simp only [runOp, Base.delete, get_valid _ k none hk,
                  getValueObjectAtKey, hl, Option.getD_some, h2]
      | none =>
          cases k with
          | kbool b => simp [keyValid] at hk
          | knull => simp [keyValid] at hk
          | kundef => simp [keyValid] at hk
          | kstr s =>
              refine ⟨.flag (truthy ((lookupA d s).getD .vundef)),
                removeA d s, ?_, ?_, dbNormal_removeA hd⟩
              · simp only [runOp, Base.delete,
                  get_valid _ (.kstr s) none hk, getValueObjectAtKey]
                rfl
              · simp only [runOp, Base.delete,
                  get_valid _ (.kstr s) none hk, getValueObjectAtKey]
                rfl
          | knum n =>
              refine ⟨.flag (truthy
                  ((lookupA d (normKey (.knum n))).getD .vundef)),
                removeA d (normKey (.knum n)), ?_, ?_, dbNormal_removeA hd⟩
              · simp only [runOp, Base.delete,
                  get_valid _ (.knum n) none hk, getValueObjectAtKey]
                rfl
              · simp only [runOp, Base.delete,
                  get_valid _ (.knum n) none hk, getValueObjectAtKey]
                rfl
  | delAll =>
      exact ⟨.unit, [], by simp [runOp, Base.deleteAll],
        by simp [runOp, Base.deleteAll], by simp [dbNormal]⟩
  | keys =>
      exact ⟨.names (d.map Prod.fst), d, rfl, rfl, hd⟩

theorem runOps_modes : ∀ (ops : List Op) (d : List (String × JsValue)),
    dbNormal d = true → okRun ⟨d, some d⟩ ops = true →
    ∃ outs d', runOps ⟨d, some d⟩ ops = (outs, ⟨d', some d'⟩) ∧
      runOps ⟨d, none⟩ ops = (outs, ⟨d', none⟩) ∧ dbNormal d' = true := by
  intro ops
  induction ops with
  | nil => intro d hd _; exact ⟨[], d, rfl, rfl, hd⟩
  | cons op rest ih =>
      intro d hd hok
      simp only [okRun, Bool.and_eq_true] at hok
      obtain ⟨o, d1, h1, h2, h3⟩ := modes_step op d hd hok.1
      have hok2 : okRun ⟨d1, some d1⟩ rest = true := by
        have := hok.2
        rw [h1] at this
        exact this
      obtain ⟨outs, d2, h4, h5, h6⟩ := ih d1 h3 hok2
      refine ⟨o :: outs, d2, ?_, ?_, h6⟩
      · simp only [runOps, h1, h4]
      · simp only [runOps, h2, h5]

/-- Whether a value is a present non-container scalar: a number, text,
or boolean (null and `undefined` are excluded). -/
def isScalar : JsValue → Bool
  | .vnum _ => true
  | .vstr _ => true
  | .vbool _ => true
  | _ => false

theorem isScalar_not_isObj {s : JsValue} (h : isScalar s = true) :
    isObj s = false := by
  cases s <;> first
    | rfl
    | simp [isScalar] at h

theorem isScalar_not_isNullish {s : JsValue} (h : isScalar s = true) :
    isNullish s = false := by
  cases s <;> first
    | rfl
    | simp [isScalar] at h

theorem isScalar_normal {s : JsValue} (h : isScalar s = true) :
    NormalB s = true := by
  cases s <;> first
    | rfl
    | simp [isScalar] at h

theorem setPath_nonObj {v : JsValue} (p : List String) (L : JsValue)
    (hobj : isObj v = false) (hp : p ≠ []) : setPath v p L = v := by
  cases p with
  | nil => exact absurd rfl hp
  | cons k rest =>
      cases rest with
      | nil =>
          simp only [setPath]
          rw [if_neg (by simp [hobj])]
      | cons k2 rest' =>
          simp only [setPath]
          rw [if_neg (by simp [hobj])]

theorem normalizeList_self {es : List JsValue}
    (hN : NormalListB es = true) : normalizeList es = es := by
  have h := normalize_normal (.varr es) (by simpa [NormalB] using hN)
  simpa [normalize] using h

theorem normalizeList_set_hole : ∀ (es : List JsValue) (i : Nat),
    NormalListB es = true → i < es.length →
    normalizeList (es.set i .vundef) = es.set i .vnull := by
  intro es
  induction es with
  | nil => intro i _ h; simp at h
  | cons e rest ih =>
      intro i hN hi
      simp only [NormalListB, Bool.and_eq_true] at hN
      cases i with
      | zero =>
          simp only [List.set, normalizeList, normalize]
          rw [normalizeList_self hN.2]
      | succ j =>
          simp only [List.set, normalizeList]
          rw [normalize_normal e hN.1, ih j hN.2 (by simpa using hi)]

theorem normalize_set_hole {es : List JsValue} {i : Nat}
    (hN : NormalB (.varr es) = true) (hi : i < es.length) :
    normalize (.varr (es.set i .vundef)) = .varr (es.set i .vnull) := by
  simp only [normalize, JsValue.varr.injEq]
  exact normalizeList_set_hole es i (by simpa [NormalB] using hN) hi

theorem getPath_append : ∀ (p q : List String) (v : JsValue),
    getPath v (p ++ q) = getPath (getPath v p) q := by
  intro p
  induction p with
  | nil => intro q v; rfl
  | cons k rest ih =>
      intro q v
      simp only [List.cons_append, getPath]
      exact ih q (childGet v k)

theorem getPath_obj_of_obj : ∀ (q : List String) (v w : JsValue),
    getPath v q = w → isObj w = true → isObj v = true := by
  intro q
  induction q with
  | nil =>
      intro v w h hw
      rw [getPath] at h
      rw [h]
      exact hw
  | cons k rest ih =>
      intro v w h hw
      rw [getPath] at h
      cases v with
      | varr es => rfl
      | vobj fs => rfl
      | vundef =>
          exfalso
          have hc := ih _ w h hw
          simp [childGet, isObj] at hc
      | vnull =>
          exfalso
          have hc := ih _ w h hw
          simp [childGet, isObj] at hc
      | vbool b =>
          exfalso
          have hc := ih _ w h hw
          simp [childGet, isObj] at hc
      | vnum n =>
          exfalso
          have hc := ih _ w h hw
          simp [childGet, isObj] at hc
      | vstr s =>
          exfalso
          have hc := ih _ w h hw
          rw [childGet] at hc
          by_cases hidx : isIndexStr k = true
          · rw [if_pos hidx] at hc
            cases hg : s.data.get? (strToNat k) with
            | some c => rw [hg] at hc; simp [isObj] at hc
            | none => rw [hg] at hc; simp [isObj] at hc
          · rw [if_neg hidx] at hc
            simp [isObj] at hc

theorem setPathOk_of_walk : ∀ (q : List String) (v w : JsValue),
    getPath v q = w → isObj w = true → setPathOk v q = true := by
  intro q
  induction q with
  | nil => intro v w _ _; rfl
  | cons k rest ih =>
      intro v w h hw
      rw [getPath] at h
      by_cases hobj : isObj v = true
      · cases rest with
        | nil =>
            rw [getPath] at h
            simp only [setPathOk, hobj, Bool.not_true, Bool.false_or]
            apply canAssign_of_childGet_isObj
            rw [h]
            exact hw
        | cons k2 r2 =>
            have hcobj : isObj (childGet v k) = true :=
              getPath_obj_of_obj (k2 :: r2) _ w h hw
            simp only [setPathOk, hobj, Bool.not_true, Bool.false_or,
              Bool.and_eq_true]
            refine ⟨canAssign_of_childGet_isObj hcobj, ?_⟩
            rw [if_pos hcobj]
            exact ih (childGet v k) w h hw
      · have hobj' : isObj v = false := by
          revert hobj
          cases isObj v <;> simp
        cases rest with
        | nil => simp [setPathOk, hobj']
        | cons k2 r2 => simp [setPathOk, hobj']

theorem isUndef_setPath {v : JsValue} (p : List String) (X : JsValue)
    (hobj : isObj v = true) : isUndef (setPath v p X) = false := by
  have hvu : isUndef v = false := by
    cases v <;> first
      | rfl
      | simp [isObj] at hobj
  cases p with
  | nil => simpa [setPath] using hvu
  | cons k rest =>
      cases rest with
      | nil =>
          simp only [setPath, hobj, if_true]
          rw [isUndef_childSet]
          exact hvu
      | cons k2 r2 =>
          simp only [setPath, hobj, if_true]
          rw [isUndef_childSet]
          exact hvu

theorem unset_seq_hole : ∀ (pre : List String) (v : JsValue)
    (es : List JsValue) (a : String),
    getPath v pre = .varr es → isIndexStr a = true →
    strToNat a < es.length →
    unsetPath v (pre ++ [a]) =
      (if pre = [] then .varr (es.set (strToNat a) .vundef)
       else setPath v pre (.varr (es.set (strToNat a) .vundef)), true) := by
  intro pre
  induction pre with
  | nil =>
      intro v es a hg hidx hlt
      rw [getPath] at hg
      subst hg
      have hlen : a ≠ "length" := by
        intro hh
        rw [hh] at hidx
        exact absurd hidx (by decide)
      simp only [List.nil_append]
      rw [if_pos trivial]
      show deleteKey (.varr es) a = _
      simp only [deleteKey, if_neg hlen, hidx, if_true]
      rw [if_pos hlt]
  | cons k rest ih =>
      intro v es a hg hidx hlt
      have hvobj : isObj v = true :=
        getPath_obj_of_obj (k :: rest) v (.varr es) hg rfl
      rw [getPath] at hg
      have hcobj : isObj (childGet v k) = true := by
        cases hr : rest with
        | nil => rw [hr] at hg; rw [getPath] at hg; rw [hg]; rfl
        | cons k2 r2 =>
            rw [hr] at hg
            exact getPath_obj_of_obj (k2 :: r2) _ (.varr es) hg rfl
      have hres := ih (childGet v k) es a hg hidx hlt
      cases rest with
      | nil =>
          have hres' : unsetPath (childGet v k) [a] =
              (.varr (es.set (strToNat a) .vundef), true) := by
            simpa using hres
          have hstep : unsetPath v ([k] ++ [a]) =
              (if isObj (childGet v k) = true
               then childSet v k (unsetPath (childGet v k) [a]).1 else v,
               (unsetPath (childGet v k) [a]).2) := rfl
          rw [hstep, if_pos hcobj, hres']
          rw [if_neg (by simp : ¬ ([k] : List String) = [])]
          simp only [setPath, hvobj, if_true]
      | cons k2 r2 =>
          have hres' : unsetPath (childGet v k) ((k2 :: r2) ++ [a]) =
              (setPath (childGet v k) (k2 :: r2)
                (.varr (es.set (strToNat a) .vundef)), true) := by
            simpa using hres
          have hstep : unsetPath v ((k :: k2 :: r2) ++ [a]) =
              (if isObj (childGet v k) = true
               then childSet v k
                 (unsetPath (childGet v k) ((k2 :: r2) ++ [a])).1 else v,
               (unsetPath (childGet v k) ((k2 :: r2) ++ [a])).2) := rfl
          rw [hstep, if_pos hcobj, hres']
          rw [if_neg (by simp : ¬ (k :: k2 :: r2 : List String) = [])]
          simp only [setPath, hvobj, if_true, hcobj]

/-- C9: the invalid-key error of `set` (key not text or numeric) and the
missing-default error of `ensure` (nullish default) are raised before
any mutation is attempted: the call returns the error and produces no
successor state, so durable store and mirror are exactly as before the
call. -/
theorem C9_errors_before_mutation (st1 st2 : BaseState)
    (key1 key2 : KeyInput) (v dflt : JsValue)
    (p1 p2 : Option (List String))
    (hk : keyValid key1 = false) (hD : isNullish dflt = true) :
    Base.set st1 key1 v p1 = .error .invalidKey ∧
    Base.ensure st2 key2 dflt p2 = .error .noDefault := by
  constructor
  · simp [Base.set, hk]
  · simp [Base.ensure, hD]

/-- Witness for C9 at concrete inputs: a null key for `set` and a null
default for `ensure`. -/
theorem C9_witness :
    keyValid .knull = false ∧ isNullish .vnull = true ∧
    Base.set (Base.init [] true) .knull (.vnum 1) none =
      .error .invalidKey ∧
    Base.ensure (Base.init [] true) (.kstr "k") .vnull none =
      .error .noDefault := by
  have h := C9_errors_before_mutation (Base.init [] true)
    (Base.init [] true) .knull (.kstr "k") (.vnum 1) .vnull none none
    (by decide) (by decide)
  exact ⟨by decide, by decide, h.1, h.2⟩

/-- C5: for every text or numeric key and every plain JSON tree V,
`set(K, V)` followed by `get(K)` returns a value equal to V, in both
mirrored and direct mode (the state carries the mode). -/
theorem C5_set_get_roundtrip (st : BaseState) (key : KeyInput)
    (V : JsValue) (hk : keyValid key = true) (hV : NormalB V = true) :
    ∃ st', Base.set st key V none = .ok st' ∧
      Base.get st' key none = .ok V := by
  have hu : isUndef V = false := NormalB_not_isUndef hV
  refine ⟨⟨upsertA st.db (normKey key) V,
    st.map.map (fun m => upsertA m (normKey key) V)⟩, ?_, ?_⟩
  · simp only [Base.set, hk, if_true, hu, Bool.false_eq_true, if_false]
    rw [normalize_normal V hV]
  · rw [get_valid _ key none hk]
    have : getValueObjectAtKey ⟨upsertA st.db (normKey key) V,
        st.map.map (fun m => upsertA m (normKey key) V)⟩ (normKey key)
        = V := by
      cases hm : st.map with
      | none => simp [getValueObjectAtKey, hm, lookupA_upsertA_self]
      | some m => simp [getValueObjectAtKey, hm, lookupA_upsertA_self]
    rw [this]

/-- Witness for C5: a mirrored store, the key "k", and a small mapping
value round-trip exactly. -/
theorem C5_witness :
    keyValid (KeyInput.kstr "k") = true ∧
    NormalB (.vobj [("a", .vnum 1)]) = true ∧
    ∃ st', Base.set (Base.init [] true) (.kstr "k")
        (.vobj [("a", .vnum 1)]) none = .ok st' ∧
      Base.get st' (.kstr "k") none = .ok (.vobj [("a", .vnum 1)]) := by
  exact ⟨by decide, by decide,
    C5_set_get_roundtrip (Base.init [] true) (.kstr "k")
      (.vobj [("a", .vnum 1)]) (by decide) (by decide)⟩

/-- C1 counterexample: `ensure` tests JS truthiness, not existence. The
default 0 is persisted by the first call, but because the stored 0 is
falsy, a second `ensure` with default 5 overwrites it and returns 5; the
claim demands that it return the original 0 and leave the store at 0. -/
theorem C1_counterexample :
    Base.ensure (Base.init [] true) (.kstr "k") (.vnum 0) none =
      .ok (.vnum 0, ⟨[("k", .vnum 0)], some [("k", .vnum 0)]⟩) ∧
    Base.ensure ⟨[("k", .vnum 0)], some [("k", .vnum 0)]⟩ (.kstr "k")
      (.vnum 5) none =
      .ok (.vnum 5, ⟨[("k", .vnum 5)], some [("k", .vnum 5)]⟩) := by
  constructor
  · rfl
  · rfl

/-- C1 (amended): if a TRUTHY value exists at (key, path) — not null,
false, 0, empty text, or absent — then `ensure` returns it unchanged and
performs no write for every default; a falsy stored value is overwritten
by the default instead. -/
theorem C1_amended_ensure_truthy (st : BaseState) (key : KeyInput)
    (D v : JsValue) (p : Option (List String))
    (hD : isNullish D = false)
    (hget : Base.get st key p = .ok v) (hv : truthy v = true) :
    Base.ensure st key D p = .ok (v, st) := by
  simp [Base.ensure, hD, hget, hv]

/-- Witness for C1: a stored truthy 7 is returned unchanged with the
state untouched, for the different default 1. -/
theorem C1_witness :
    isNullish (JsValue.vnum 1) = false ∧
    Base.get ⟨[("k", .vnum 7)], some [("k", .vnum 7)]⟩ (.kstr "k") none =
      .ok (.vnum 7) ∧
    truthy (.vnum 7) = true ∧
    Base.ensure ⟨[("k", .vnum 7)], some [("k", .vnum 7)]⟩ (.kstr "k")
      (.vnum 1) none =
      .ok (.vnum 7, ⟨[("k", .vnum 7)], some [("k", .vnum 7)]⟩) := by
  exact ⟨by decide, by decide, by decide,
    C1_amended_ensure_truthy ⟨[("k", .vnum 7)], some [("k", .vnum 7)]⟩
      (.kstr "k") (.vnum 1) (.vnum 7) none (by decide) (by decide)
      (by decide)⟩

/-- C4 counterexample: an Entry whose stored value is the falsy 0 exists
at "k", yet `delete` without a path returns false (the code tests
`if (data)`), while removing the Entry; the claim demands true for every
stored value including falsy ones. -/
theorem C4_counterexample :
    Base.delete ⟨[("k", .vnum 0)], some [("k", .vnum 0)]⟩ (.kstr "k")
      none = .ok (false, ⟨[], some []⟩) := by
  rfl

/-- C4 (amended): `delete(K)` without a path removes the Entry from both
durable store and mirror and a subsequent `get(K)` returns absent, but
the returned Bool is the truthiness of the old stored value — true for a
truthy value, false both for a nonexistent key and for a stored falsy
value such as 0, false, or empty text. -/
theorem C4_amended_delete_key (st : BaseState) (key : KeyInput)
    (hk : keyValid key = true) :
    Base.delete st key none =
      .ok (truthy (getValueObjectAtKey st (normKey key)),
        ⟨removeA st.db (normKey key),
         st.map.map (fun m => removeA m (normKey key))⟩) ∧
    Base.get ⟨removeA st.db (normKey key),
      st.map.map (fun m => removeA m (normKey key))⟩ key none =
      .ok .vundef := by
  constructor
  · cases key with
    | kstr s => simp [Base.delete, get_valid _ (.kstr s) none hk]
    | knum n => simp [Base.delete, get_valid _ (.knum n) none hk]
    | kbool b => simp [keyValid] at hk
    | knull => simp [keyValid] at hk
    | kundef => simp [keyValid] at hk
  · rw [get_valid _ key none hk]
    have : getValueObjectAtKey ⟨removeA st.db (normKey key),
        st.map.map (fun m => removeA m (normKey key))⟩ (normKey key)
        = .vundef := by
      cases hm : st.map with
      | none => simp [getValueObjectAtKey, hm, lookupA_removeA_self]
      | some m => simp [getValueObjectAtKey, hm, lookupA_removeA_self]
    rw [this]

/-- Witness for C4 at a concrete input: deleting the key "k" holding the
truthy value 7 returns true and leaves the key absent. -/
theorem C4_witness :
    keyValid (KeyInput.kstr "k") = true ∧
    Base.delete ⟨[("k", .vnum 7)], some [("k", .vnum 7)]⟩ (.kstr "k")
      none = .ok (true, ⟨[], some []⟩) ∧
    Base.get ⟨[], some []⟩ (.kstr "k") none = .ok .vundef := by
  have h := C4_amended_delete_key
    ⟨[("k", .vnum 7)], some [("k", .vnum 7)]⟩ (.kstr "k") (by decide)
  exact ⟨by decide, h.1, h.2⟩

/-- C3 counterexample: deleting the path "a" under "k", whose stored
value is the empty mapping, returns true even though the accessor never
existed, and returns true again on the identical second call (the state
is unchanged); the claim demands false both times. -/
theorem C3_counterexample :
    Base.delete ⟨[("k", .vobj [])], some [("k", .vobj [])]⟩ (.kstr "k")
      (some ["a"]) =
      .ok (true, ⟨[("k", .vobj [])], some [("k", .vobj [])]⟩) ∧
    getPath (.vobj []) ["a"] = .vundef := by
  constructor
  · rfl
  · rfl

/-- C3 (amended): with a path, `delete` returns the lodash `unset`
report, which does not depend on whether the accessor existed: it is
true unless the addressed parent is a text node whose in-range character
slot or `length` is targeted, or a sequence whose `length` is targeted.
Repeating the same delete therefore returns the same flag again, not
false. -/
theorem C3_amended_delete_path_flag (st : BaseState) (key : KeyInput)
    (p : List String) (data : JsValue)
    (hk : keyValid key = true)
    (hget : Base.get st key none = .ok data)
    (hdu : isUndef data = false) :
    ∃ st', Base.delete st key (some p) =
      .ok (unsetReportsTrue data p, st') := by
  have hres : isUndef (unsetPath data p).1 = false := by
    rw [isUndef_unsetPath]
    exact hdu
  refine ⟨⟨upsertA st.db (normKey key) (normalize (unsetPath data p).1),
    st.map.map (fun m => upsertA m (normKey key) (unsetPath data p).1)⟩,
    ?_⟩
  simp only [Base.delete, hget, Base.set, hk, if_true, hres,
    Bool.false_eq_true, if_false, unset_flag_eq]

/-- Witness for C3: the nonexistent accessor "a" under the stored empty
mapping is reported deleted (true). -/
theorem C3_witness :
    keyValid (KeyInput.kstr "k") = true ∧
    Base.get ⟨[("k", .vobj [])], some [("k", .vobj [])]⟩ (.kstr "k")
      none = .ok (.vobj []) ∧
    isUndef (.vobj []) = false ∧
    unsetReportsTrue (.vobj []) ["a"] = true ∧
    ∃ st', Base.delete ⟨[("k", .vobj [])], some [("k", .vobj [])]⟩
      (.kstr "k") (some ["a"]) = .ok (true, st') := by
  obtain ⟨st', h⟩ := C3_amended_delete_path_flag
    ⟨[("k", .vobj [])], some [("k", .vobj [])]⟩ (.kstr "k") ["a"]
    (.vobj []) (by decide) (by decide) (by decide)
  exact ⟨by decide, by decide, by decide, by decide, ⟨st', h⟩⟩

/-- C2 counterexample: the spec scenario. After `set('user:1', 'x',
'tags.0')`, the call `delete('user:1', 'tags.0')` does NOT splice: the
mirror keeps a one-element sequence with an `undefined` hole (persisted
as `[null]`), so `get('user:1', 'tags')` returns a sequence of length 1,
not the empty sequence the claim demands. -/
theorem C2_counterexample :
    toPath "tags.0" = ["tags", "0"] ∧
    Base.set (Base.init [] true) (.kstr "user:1") (.vstr "x")
      (some ["tags", "0"]) =
      .ok ⟨[("user:1", .vobj [("tags", .varr [.vstr "x"])])],
        some [("user:1", .vobj [("tags", .varr [.vstr "x"])])]⟩ ∧
    Base.delete ⟨[("user:1", .vobj [("tags", .varr [.vstr "x"])])],
        some [("user:1", .vobj [("tags", .varr [.vstr "x"])])]⟩
      (.kstr "user:1") (some ["tags", "0"]) =
      .ok (true, ⟨[("user:1", .vobj [("tags", .varr [.vnull])])],
        some [("user:1", .vobj [("tags", .varr [.vundef])])]⟩) ∧
    Base.get ⟨[("user:1", .vobj [("tags", .varr [.vnull])])],
        some [("user:1", .vobj [("tags", .varr [.vundef])])]⟩
      (.kstr "user:1") (some ["tags"]) = .ok (.varr [.vundef]) ∧
    JsValue.varr [.vundef] ≠ .varr [] := by
  refine ⟨rfl, rfl, rfl, rfl, ?_⟩
  decide

/-- C2 (amended): for every stored value holding a sequence at the
parent of the path's final accessor — at any depth, the parent being
`getPath v pre` for the path `pre ++ [a]` — `delete` does not splice:
lodash `_.unset` replaces the addressed element with an absent hole
(kept as `undefined` in the mirror and serialized as `null` when
persisted), the sequence keeps its length, and reading the deleted slot
afterwards yields absent, not a shifted element. -/
theorem C2_amended_delete_seq_element (d : List (String × JsValue))
    (key : KeyInput) (pre : List String) (a : String) (v : JsValue)
    (es : List JsValue) (i : Nat) (newData : JsValue)
    (hk : keyValid key = true)
    (hv : lookupA d (normKey key) = some v)
    (hpar : getPath v pre = .varr es)
    (hidx : isIndexStr a = true) (hi : strToNat a = i)
    (hlt : i < es.length)
    (hN : NormalB (.varr es) = true)
    (hnew : newData = if pre = [] then .varr (es.set i .vundef)
        else setPath v pre (.varr (es.set i .vundef))) :
    Base.delete ⟨d, some d⟩ key (some (pre ++ [a])) =
      .ok (true, ⟨upsertA d (normKey key) (normalize newData),
        some (upsertA d (normKey key) newData)⟩) ∧
    Base.get ⟨upsertA d (normKey key) (normalize newData),
        some (upsertA d (normKey key) newData)⟩ key (some pre) =
      .ok (.varr (es.set i .vundef)) ∧
    Base.get ⟨upsertA d (normKey key) (normalize newData),
        some (upsertA d (normKey key) newData)⟩ key
        (some (pre ++ [a])) = .ok .vundef ∧
    (es.set i .vundef).length = es.length ∧
    normalize (.varr (es.set i .vundef)) = .varr (es.set i .vnull) := by
  subst hi
  have hvobj : isObj v = true :=
    getPath_obj_of_obj pre v (.varr es) hpar rfl
  have hgetv : Base.get ⟨d, some d⟩ key none = .ok v := by
    rw [get_valid _ key none hk]
    show Except.ok (getValueObjectAtKey _ (normKey key)) = Except.ok v
    simp [getValueObjectAtKey, hv]
  have hunset : unsetPath v (pre ++ [a]) = (newData, true) := by
    rw [hnew]
    exact unset_seq_hole pre v es a hpar hidx hlt
  have hund : isUndef newData = false := by
    rw [hnew]
    by_cases hpre : pre = []
    · rw [if_pos hpre]
      rfl
    · rw [if_neg hpre]
      exact isUndef_setPath pre _ hvobj
  have hgp : getPath newData pre = .varr (es.set (strToNat a) .vundef) := by
    rw [hnew]
    by_cases hpre : pre = []
    · subst hpre
      rw [if_pos rfl]
      rfl
    · rw [if_neg hpre]
      exact setPath_get pre v _ hpre hvobj
        (setPathOk_of_walk pre v (.varr es) hpar rfl)
  have hg' : getValueObjectAtKey
      ⟨upsertA d (normKey key) (normalize newData),
       some (upsertA d (normKey key) newData)⟩ (normKey key) = newData := by
    simp [getValueObjectAtKey, lookupA_upsertA_self]
  refine ⟨?_, ?_, ?_, by simp, normalize_set_hole hN hlt⟩
  · simp only [Base.delete, hgetv, hunset, Base.set, hk, if_true, hund,
      Bool.false_eq_true, if_false]
    rfl
  · rw [get_valid _ key (some pre) hk]
    show Except.ok (getPath (getValueObjectAtKey _ (normKey key)) pre) =
      Except.ok (.varr (es.set (strToNat a) .vundef))
    rw [hg', hgp]
  · rw [get_valid _ key (some (pre ++ [a])) hk]
    show Except.ok
      (getPath (getValueObjectAtKey _ (normKey key)) (pre ++ [a])) =
      Except.ok .vundef
    rw [hg', getPath_append, hgp]
    show Except.ok (childGet (.varr (es.set (strToNat a) .vundef)) a) =
      Except.ok .vundef
    simp only [childGet, hidx, if_true]
    rw [getD_set_self es (strToNat a) .vundef .vundef hlt]

/-- Witness for C2 at the spec's own nested scenario: deleting
'tags.0' under 'user:1', where the sequence sits inside a mapping,
leaves a one-element sequence holding a hole (null once persisted). -/
theorem C2_witness :
    lookupA [("user:1", JsValue.vobj [("tags", .varr [.vstr "x"])])]
      "user:1" = some (.vobj [("tags", .varr [.vstr "x"])]) ∧
    getPath (.vobj [("tags", .varr [.vstr "x"])]) ["tags"] =
      .varr [.vstr "x"] ∧
    isIndexStr "0" = true ∧
    (0 : Nat) < [JsValue.vstr "x"].length ∧
    Base.delete ⟨[("user:1", .vobj [("tags", .varr [.vstr "x"])])],
        some [("user:1", .vobj [("tags", .varr [.vstr "x"])])]⟩
      (.kstr "user:1") (some (["tags"] ++ ["0"])) =
      .ok (true, ⟨[("user:1", .vobj [("tags", .varr [.vnull])])],
        some [("user:1", .vobj [("tags", .varr [.vundef])])]⟩) ∧
    Base.get ⟨[("user:1", .vobj [("tags", .varr [.vnull])])],
        some [("user:1", .vobj [("tags", .varr [.vundef])])]⟩
      (.kstr "user:1") (some ["tags"]) = .ok (.varr [.vundef]) ∧
    ([JsValue.vstr "x"].set 0 .vundef).length = [JsValue.vstr "x"].length := by
  have h := C2_amended_delete_seq_element
    [("user:1", .vobj [("tags", .varr [.vstr "x"])])] (.kstr "user:1")
    ["tags"] "0" (.vobj [("tags", .varr [.vstr "x"])]) [.vstr "x"] 0
    (.vobj [("tags", .varr [.vundef])])
    (by decide) (by decide) (by decide) (by decide) (by decide)
    (by decide) (by decide) (by decide)
  exact ⟨by decide, by decide, by decide, by decide, h.1, h.2.1,
    h.2.2.2.1⟩

/-- C6 counterexample: with the scalar 5 stored at "k", the path write
`set('k', 'x', 'a')` silently discards the leaf (`_.set` refuses to
write into a non-object), so the subsequent `get('k', 'a')` returns
absent rather than the leaf. -/
theorem C6_counterexample :
    Base.set ⟨[("k", .vnum 5)], some [("k", .vnum 5)]⟩ (.kstr "k")
      (.vstr "x") (some ["a"]) =
      .ok ⟨[("k", .vnum 5)], some [("k", .vnum 5)]⟩ ∧
    Base.get ⟨[("k", .vnum 5)], some [("k", .vnum 5)]⟩ (.kstr "k")
      (some ["a"]) = .ok .vundef ∧
    JsValue.vundef ≠ .vstr "x" := by
  refine ⟨rfl, rfl, ?_⟩
  decide

/-- C6 (amended): when the write starts from a container root (the
current value being a mapping or sequence, or a fresh empty mapping for
a null or absent root), along a path whose sequence writes use index
accessors at most one past the end and that does not coerce a text node
at an intermediate position, `set(K, L, P)` followed by `get(K, P)`
returns L, `get(K)` holds L at P, and every location off the path that
existed before is unchanged. -/
theorem C6_amended_set_get_path (st : BaseState) (key : KeyInput)
    (p : List String) (L root : JsValue)
    (hk : keyValid key = true) (hp : p ≠ [])
    (hroot : rootFor st (normKey key) = root)
    (hobj : isObj root = true)
    (hrootN : NormalB root = true) (hLN : NormalB L = true)
    (hok : setPathOk root p = true) (hnt : noTextCoerce root p = true) :
    ∃ st', Base.set st key L (some p) = .ok st' ∧
      Base.get st' key (some p) = .ok L ∧
      Base.get st' key none = .ok (setPath root p L) ∧
      getPath (setPath root p L) p = L ∧
      (∀ q, leadsInto p q = false → leadsInto q p = false →
        getPath root q ≠ .vundef →
        getPath (setPath root p L) q = getPath root q) := by
  have hwN : NormalB (setPath root p L) = true :=
    setPath_normal p root L hrootN hLN hok
  have hu : isUndef (setPath root p L) = false := NormalB_not_isUndef hwN
  refine ⟨⟨upsertA st.db (normKey key) (setPath root p L),
    st.map.map (fun m => upsertA m (normKey key) (setPath root p L))⟩,
    ?_, ?_, ?_, ?_, ?_⟩
  · simp only [Base.set, hk, if_true, hroot, hu, Bool.false_eq_true,
      if_false]
    rw [normalize_normal _ hwN]
  · rw [get_valid _ key (some p) hk]
    have hg : getValueObjectAtKey
        ⟨upsertA st.db (normKey key) (setPath root p L),
         st.map.map (fun m => upsertA m (normKey key) (setPath root p L))⟩
        (normKey key) = setPath root p L := by
      cases hm : st.map with
      | none => simp [getValueObjectAtKey, hm, lookupA_upsertA_self]
      | some m => simp [getValueObjectAtKey, hm, lookupA_upsertA_self]
    show Except.ok (getPath (getValueObjectAtKey _ (normKey key)) p) =
      Except.ok L
    rw [hg, setPath_get p root L hp hobj hok]
  · rw [get_valid _ key none hk]
    have hg : getValueObjectAtKey
        ⟨upsertA st.db (normKey key) (setPath root p L),
         st.map.map (fun m => upsertA m (normKey key) (setPath root p L))⟩
        (normKey key) = setPath root p L := by
      cases hm : st.map with
      | none => simp [getValueObjectAtKey, hm, lookupA_upsertA_self]
      | some m => simp [getValueObjectAtKey, hm, lookupA_upsertA_self]
    show Except.ok (getValueObjectAtKey _ (normKey key)) =
      Except.ok (setPath root p L)
    rw [hg]
  · exact setPath_get p root L hp hobj hok
  · intro q hpq hqp hq
    exact setPath_frame p q root L hobj hok hnt hp hpq hqp hq

/-- Witness for C6 at a concrete input: writing the leaf 2 at the fresh
accessor "b" under the mapping root stored at "u" reads back 2, and the
existing sibling "a" is untouched. -/
theorem C6_witness :
    keyValid (KeyInput.kstr "u") = true ∧
    rootFor ⟨[("u", .vobj [("a", .vnum 1)])],
      some [("u", .vobj [("a", .vnum 1)])]⟩ "u" = .vobj [("a", .vnum 1)] ∧
    ∃ st', Base.set ⟨[("u", .vobj [("a", .vnum 1)])],
        some [("u", .vobj [("a", .vnum 1)])]⟩ (.kstr "u") (.vnum 2)
        (some ["b"]) = .ok st' ∧
      Base.get st' (.kstr "u") (some ["b"]) = .ok (.vnum 2) := by
  obtain ⟨st', h1, h2, _, _, _⟩ := C6_amended_set_get_path
    ⟨[("u", .vobj [("a", .vnum 1)])], some [("u", .vobj [("a", .vnum 1)])]⟩
    (.kstr "u") ["b"] (.vnum 2) (.vobj [("a", .vnum 1)]) (by decide)
    (by simp) (by decide) (by decide) (by decide) (by decide) (by decide)
    (by decide)
  exact ⟨by decide, by decide, st', h1, h2⟩

/-- C10 counterexample: a present Entry whose stored value is null (not
absent) is also replaced by a fresh empty mapping before a path write,
contradicting the clause that ONLY an absent root is so replaced. -/
theorem C10_counterexample :
    lookupA [("k", JsValue.vnull)] "k" = some .vnull ∧
    JsValue.vnull ≠ .vundef ∧
    Base.set ⟨[("k", .vnull)], some [("k", .vnull)]⟩ (.kstr "k")
      (.vstr "x") (some ["a"]) =
      .ok ⟨[("k", .vobj [("a", .vstr "x")])],
        some [("k", .vobj [("a", .vstr "x")])]⟩ := by
  refine ⟨rfl, ?_, rfl⟩
  decide

/-- C10 (amended): a stored value that is a present non-container scalar
(number, text, or boolean) survives every path write unchanged — the
scalar is re-persisted as is and the leaf discarded; only a null or
absent root is replaced by a fresh empty mapping before the path
write. -/
theorem C10_amended_scalar_root_preserved (st : BaseState)
    (key : KeyInput) (L s : JsValue) (p : List String)
    (hk : keyValid key = true) (hs : isScalar s = true) (hp : p ≠ [])
    (hdb : lookupA st.db (normKey key) = some s)
    (hmap : ∀ m, st.map = some m → lookupA m (normKey key) = some s) :
    Base.set st key L (some p) = .ok st := by
  have hcur : getValueObjectAtKey st (normKey key) = s := by
    cases hm : st.map with
    | none => simp [getValueObjectAtKey, hm, hdb]
    | some m => simp [getValueObjectAtKey, hm, hmap m hm]
  have hroot : rootFor st (normKey key) = s := by
    simp [rootFor, hcur, isScalar_not_isNullish hs]
  have hsp : setPath s p L = s :=
    setPath_nonObj p L (isScalar_not_isObj hs) hp
  have hns : normalize s = s := normalize_normal s (isScalar_normal hs)
  have hu : isUndef s = false := NormalB_not_isUndef (isScalar_normal hs)
  simp only [Base.set, hk, if_true, hroot, hsp, hu, Bool.false_eq_true,
    if_false, hns, upsertA_self _ _ _ hdb]
  cases hm : st.map with
  | none =>
      show Except.ok (⟨st.db, none⟩ : BaseState) = Except.ok st
      rw [← hm]
  | some m =>
      show Except.ok
        (⟨st.db, some (upsertA m (normKey key) s)⟩ : BaseState) =
        Except.ok st
      rw [upsertA_self _ _ _ (hmap m hm), ← hm]

/-- Witness for C10 at a concrete input: the scalar 5 stored at "k" is
untouched by `set('k', 'x', 'a')`. -/
theorem C10_witness :
    isScalar (JsValue.vnum 5) = true ∧
    Base.set ⟨[("k", .vnum 5)], some [("k", .vnum 5)]⟩ (.kstr "k")
      (.vstr "x") (some ["a"]) =
      .ok ⟨[("k", .vnum 5)], some [("k", .vnum 5)]⟩ := by
  refine ⟨by decide, ?_⟩
  exact C10_amended_scalar_root_preserved
    ⟨[("k", .vnum 5)], some [("k", .vnum 5)]⟩ (.kstr "k") (.vstr "x")
    (.vnum 5) ["a"] (by decide) (by decide) (by simp) (by decide)
    (by intro m hm; simp at hm; rw [← hm]; decide)

/-- C7 counterexample: after the completed facade calls
`set('u', 'x', 'tags.0')` and `delete('u', 'tags.0')` in mirrored mode,
the mirror holds `{tags: [undefined]}` while the durable store holds
`{tags: [null]}` — the two disagree on the value at "u". -/
theorem C7_counterexample :
    (runOps (Base.init [] true)
      [.set (.kstr "u") (.vstr "x") (some ["tags", "0"]),
       .del (.kstr "u") (some ["tags", "0"])]).2 =
      ⟨[("u", .vobj [("tags", .varr [.vnull])])],
       some [("u", .vobj [("tags", .varr [.vundef])])]⟩ ∧
    ([("u", JsValue.vobj [("tags", .varr [.vnull])])] :
        List (String × JsValue)) ≠
      [("u", .vobj [("tags", .varr [.vundef])])] := by
  refine ⟨rfl, ?_⟩
  decide

/-- C7 (amended): in mirrored mode, after every sequence of completed
facade calls the mirror and the durable store hold the same keys in the
same order, and for every key the durable store holds exactly the JSON
serialization of the mirror value (identical up to the normalization
that turns `undefined` sequence holes into null and drops `undefined`
mapping fields; equal outright whenever the mirror value is plain
JSON). -/
theorem C7_amended_mirror_serialized (rows : List (String × JsValue))
    (ops : List Op) (hN : dbNormal rows = true) :
    ∃ m, (runOps (Base.init rows true) ops).2.map = some m ∧
      (runOps (Base.init rows true) ops).2.db = normEntries m := by
  obtain ⟨m', hm'⟩ := mirror_runOps ops rows
  rw [normEntries_self hN] at hm'
  have hinit : Base.init rows true = ⟨rows, some rows⟩ := rfl
  rw [hinit, hm']
  exact ⟨m', rfl, rfl⟩

/-- Witness for C7 at a concrete input: one plain row and one hole-free
write keep mirror and store in exact agreement. -/
theorem C7_witness :
    dbNormal [("a", JsValue.vnum 1)] = true ∧
    ∃ m, (runOps (Base.init [("a", .vnum 1)] true)
        [.set (.kstr "b") (.vnum 0) none]).2.map = some m ∧
      (runOps (Base.init [("a", .vnum 1)] true)
        [.set (.kstr "b") (.vnum 0) none]).2.db = normEntries m := by
  exact ⟨by decide, C7_amended_mirror_serialized [("a", .vnum 1)]
    [.set (.kstr "b") (.vnum 0) none] (by decide)⟩

/-- C8 counterexample: starting from the same (empty) stored contents,
the sequence set("k", ["x"]); delete("k", "0"); get("k", "0") returns
absent (`undefined`) in mirrored mode but null in direct mode, because
the hole left by the sequence-element delete is serialized as null and
direct mode re-reads the serialized form. -/
theorem C8_counterexample :
    (runOps (Base.init [] true)
      [.set (.kstr "k") (.varr [.vstr "x"]) none,
       .del (.kstr "k") (some ["0"]),
       .get (.kstr "k") (some ["0"])]).1 =
      [.unit, .flag true, .val .vundef] ∧
    (runOps (Base.init [] false)
      [.set (.kstr "k") (.varr [.vstr "x"]) none,
       .del (.kstr "k") (some ["0"]),
       .get (.kstr "k") (some ["0"])]).1 =
      [.unit, .flag true, .val .vnull] ∧
    ([Out.unit, .flag true, .val .vundef] ≠
      [Out.unit, .flag true, .val .vnull]) := by
  refine ⟨rfl, rfl, ?_⟩
  decide

/-- C8 (amended): mirrored and direct mode are observably equivalent —
identical return values from every call and identical final durable
store contents — for every sequence of facade calls that stays in the
plain JSON fragment: text or numeric keys, plain JSON value arguments,
no `_.set` walk that pads a sequence with holes or targets a non-index
sequence property, and no path delete that punches a hole into a
sequence (`okRun`). -/
theorem C8_amended_modes_equivalent (rows : List (String × JsValue))
    (ops : List Op) (hN : dbNormal rows = true)
    (hok : okRun (Base.init rows true) ops = true) :
    (runOps (Base.init rows true) ops).1 =
      (runOps (Base.init rows false) ops).1 ∧
    (runOps (Base.init rows true) ops).2.db =
      (runOps (Base.init rows false) ops).2.db := by
  have hinit1 : Base.init rows true = ⟨rows, some rows⟩ := rfl
  have hinit2 : Base.init rows false = ⟨rows, none⟩ := rfl
  rw [hinit1] at hok
  obtain ⟨outs, d', h1, h2, _⟩ := runOps_modes ops rows hN hok
  rw [hinit1, hinit2, h1, h2]
  exact ⟨rfl, rfl⟩

/-- Witness for C8 at a concrete input: a scenario exercising set, get,
ensure, path delete, key delete, indices and deleteAll produces the same
outputs and the same final store in both modes. -/
theorem C8_witness :
    dbNormal [] = true ∧
    okRun (Base.init [] true)
      [.set (.kstr "a") (.vobj [("x", .vnum 1)]) none,
       .get (.kstr "a") (some ["x"]),
       .ensure (.kstr "a") (.vnum 9) (some ["y"]),
       .del (.kstr "a") (some ["x"]),
       .keys,
       .del (.kstr "a") none,
       .delAll] = true ∧
    (runOps (Base.init [] true)
      [.set (.kstr "a") (.vobj [("x", .vnum 1)]) none,
       .get (.kstr "a") (some ["x"]),
       .ensure (.kstr "a") (.vnum 9) (some ["y"]),
       .del (.kstr "a") (some ["x"]),
       .keys,
       .del (.kstr "a") none,
       .delAll]).1 =
    (runOps (Base.init [] false)
      [.set (.kstr "a") (.vobj [("x", .vnum 1)]) none,
       .get (.kstr "a") (some ["x"]),
       .ensure (.kstr "a") (.vnum 9) (some ["y"]),
       .del (.kstr "a") (some ["x"]),
       .keys,
       .del (.kstr "a") none,
       .delAll]).1 := by
  refine ⟨by decide, by decide, ?_⟩
  exact (C8_amended_modes_equivalent []
    [.set (.kstr "a") (.vobj [("x", .vnum 1)]) none,
     .get (.kstr "a") (some ["x"]),
     .ensure (.kstr "a") (.vnum 9) (some ["y"]),
     .del (.kstr "a") (some ["x"]),
     .keys,
     .del (.kstr "a") none,
     .delAll] (by decide) (by decide)).1

end KFDB
